import Mathlib

/-!
# Verification of the RAG document storage, retrieval and caching engine

Shallow embedding of the core components of the repository:

* `RecursiveCharacterTextSplitter.split_text` / `BaseTextSplitter._merge_splits`
  (src/text_splitters/recursive_character_text_splitter.py,
   src/text_splitters/base_text_splitter.py),
* `BaseTextSplitter.split_documents`,
* `cosine_similarity` (src/utils/similarity.py),
* `InMemoryVectorStore` and `RedisVectorStore`
  (src/vector_stores/in_memory_vector_store.py, redis_vector_store.py),
* `RedisRateLimiter` (src/cache/query_cache.py).

Python strings are modelled as `List Char`; Python dicts carrying metadata or
filters are association lists `List (String × PyVal)` where `PyVal` covers the
values occurring in this code base (None, strings, ints).  The recursive
splitter is written with an explicit fuel argument (the fuel needed is the
length of the separator list, which strictly decreases on every recursive
call of the Python code), so that every definition is structurally recursive
and can be evaluated by `decide` / `rfl`.
-/

/-- A Python value as it occurs in metadata dictionaries and filters of this
code base: `None`, a string, or an int. -/
inductive PyVal where
  | vnone
  | vstr (s : String)
  | vint (n : Int)
deriving DecidableEq

/-- Python truthiness for `PyVal` (`None`, `""` and `0` are falsy). -/
def pyTruthy : PyVal → Bool
  | .vnone => false
  | .vstr s => s ≠ ""
  | .vint n => n ≠ 0

/- ----------------------------------------------------------------------
   Text splitter
   (src/text_splitters/base_text_splitter.py and
    src/text_splitters/recursive_character_text_splitter.py)
   ---------------------------------------------------------------------- -/

/-- `leads sep l` is true iff the string `l` starts with `sep`
(used to locate separator occurrences, mirroring Python substring search). -/
def leads : List Char → List Char → Bool
  | [], _ => true
  | _ :: _, [] => false
  | a :: ra, b :: rb => a == b && leads ra rb

/-- Python `sep in text`: `sep` occurs as a contiguous substring of `text`. -/
def hasSub (sep : List Char) : List Char → Bool
  | [] => leads sep []
  | c :: rest => leads sep (c :: rest) || hasSub sep rest

/-- The separator search loop of `RecursiveCharacterTextSplitter._split_text`
(lines 78-88): try each separator in order; an empty separator always matches
(and leaves `new_separators = []`); otherwise the first separator occurring in
the text is chosen together with the remaining (finer) separators. -/
def chooseSepAux (text : List Char) : List (List Char) → Option (List Char × List (List Char))
  | [] => none
  | s :: rest =>
    if s = [] then some ([], [])
    else if hasSub s text then some (s, rest)
    else chooseSepAux text rest

/-- The chosen `(separator, new_separators)` pair; when no separator matches,
Python keeps the default `separators[-1]` with `new_separators = []`. -/
def chooseSep (seps : List (List Char)) (text : List Char) : List Char × List (List Char) :=
  (chooseSepAux text seps).getD (seps.getLastD [], [])

/-- Python `text.split(sep)` for a non-empty `sep` (greedy leftmost
non-overlapping occurrences), written with explicit fuel so that it is
structurally recursive; `pySplit` below supplies sufficient fuel. -/
def splitOnF (sep : List Char) : Nat → List Char → List (List Char)
  | 0, l => [l]
  | _ + 1, [] => [[]]
  | fuel + 1, c :: rest =>
    if sep ≠ [] ∧ leads sep (c :: rest) then
      [] :: splitOnF sep fuel (rest.drop (sep.length - 1))
    else
      match splitOnF sep fuel rest with
      | [] => [[c]]
      | h :: t => (c :: h) :: t

/-- Python `text.split(sep)` (for the non-empty separators of the splitter). -/
def pySplit (sep l : List Char) : List (List Char) :=
  splitOnF sep (l.length + 1) l

/-- Python `separator.join(pieces)`. -/
def joinSep (sep : List Char) : List (List Char) → List Char
  | [] => []
  | [x] => x
  | x :: y :: t => x ++ sep ++ joinSep sep (y :: t)

/-- Sum of the lengths of a list of pieces
(Python `sum(len(s) for s in current_chunk)`). -/
def sumLen (l : List (List Char)) : Nat :=
  (l.map List.length).sum

/-- The backward overlap walk of `BaseTextSplitter._merge_splits`
(lines 109-116), phrased on the reversed buffer: the number of trailing
pieces to re-include so that their total length first reaches
`chunk_overlap`; `0` when the whole buffer is shorter than the overlap
(Python then leaves `overlap_start = len(current_chunk)`). -/
def keepCount (ov : Nat) : List (List Char) → Nat
  | [] => 0
  | p :: rest =>
    if ov ≤ p.length then 1
    else
      let k := keepCount (ov - p.length) rest
      if k = 0 then 0 else k + 1

/-- State of the merge loop of `_merge_splits`: emitted chunks, the running
buffer `current_chunk` and `current_length`. -/
structure MergeSt where
  chunks : List (List Char)
  cur : List (List Char)
  curLen : Nat
deriving DecidableEq

/-- One iteration of the loop body of `_merge_splits` (lines 94-122): close
the current chunk when adding the next piece would push the running length
above `chunk_size`, re-seeding the buffer with the trailing pieces selected
by `keepCount`; then append the piece. -/
def mergeStep (cs ov : Nat) (sep : List Char) (st : MergeSt) (s : List Char) : MergeSt :=
  if cs < st.curLen + s.length ∧ st.cur ≠ [] then
    let k := keepCount ov st.cur.reverse
    let seed := (st.cur.reverse.take k).reverse
    { chunks := st.chunks ++ [joinSep sep st.cur],
      cur := seed ++ [s],
      curLen := sumLen seed + s.length }
  else
    { chunks := st.chunks, cur := st.cur ++ [s], curLen := st.curLen + s.length }

/-- `BaseTextSplitter._merge_splits` (lines 85-130): fold the pieces through
`mergeStep` and flush the final buffer. -/
def merge_splits (cs ov : Nat) (sep : List Char) (splits : List (List Char)) : List (List Char) :=
  let st := splits.foldl (mergeStep cs ov sep) ⟨[], [], 0⟩
  if st.cur = [] then st.chunks else st.chunks ++ [joinSep sep st.cur]

/-- `split + separator if keep_separator and separator else split`
(recursive_character_text_splitter.py lines 107-110). -/
def withSep (keep : Bool) (sep s : List Char) : List Char :=
  if keep ∧ sep ≠ [] then s ++ sep else s

/-- The `for split in splits` loop of `_split_text` (lines 101-140), consuming
pairs of a piece together with the (pre-computed) result of the recursive call
on that piece (`sub` is `[]` for pieces that do not recurse): small pieces
accumulate in `good_splits`; before splicing in a recursion result or an
oversized verbatim piece the accumulated good splits are flushed through
`_merge_splits(good_splits, "")`; the trailing good splits are flushed at the
end.  (`merge_splits` of `[]` is `[]`, so Python's `if good_splits:` guard is
the identity and is dropped here.) -/
def procLoop (cs ov : Nat) (keep : Bool) (sep : List Char) (hasNew : Bool) :
    List (List Char × List (List Char)) → List (List Char) → List (List Char) → List (List Char)
  | [], good, finals => finals ++ merge_splits cs ov [] good
  | (s, sub) :: rest, good, finals =>
    if (withSep keep sep s).length < cs then
      procLoop cs ov keep sep hasNew rest (good ++ [withSep keep sep s]) finals
    else if hasNew then
      procLoop cs ov keep sep hasNew rest [] (finals ++ merge_splits cs ov [] good ++ sub)
    else
      procLoop cs ov keep sep hasNew rest [] (finals ++ merge_splits cs ov [] good ++ [withSep keep sep s])

/-- Python `chunk.strip()` (leading/trailing whitespace removed). -/
def stripWs (l : List Char) : List Char :=
  ((l.dropWhile Char.isWhitespace).reverse.dropWhile Char.isWhitespace).reverse

/-- The final list comprehension of `_split_text` (line 145):
`[chunk.strip() for chunk in final_chunks if chunk.strip()]`. -/
def cleanup (chunks : List (List Char)) : List (List Char) :=
  (chunks.map stripWs).filter (fun c => c ≠ [])

/-- `RecursiveCharacterTextSplitter._split_text` (lines 68-145), with fuel.
The Python recursion always descends to a strictly shorter separator list, so
fuel `separators.length` is sufficient; results of the recursive calls are
pre-computed per piece and handed to `procLoop`. -/
def splitTextInner (cs ov : Nat) (keep : Bool) : Nat → List (List Char) → List Char → List (List Char)
  | 0, _, _ => []
  | fuel + 1, seps, text =>
    let sc := chooseSep seps text
    let sep := sc.1
    let newSeps := sc.2
    let splits := if sep = [] then text.map (fun c => [c]) else pySplit sep text
    let pairs := splits.map (fun s =>
      (s, if (withSep keep sep s).length < cs then []
          else if newSeps ≠ [] then splitTextInner cs ov keep fuel newSeps s
          else []))
    cleanup (procLoop cs ov keep sep (!newSeps.isEmpty) pairs [] [])

/-- `DEFAULT_SEPARATORS = ["\n\n", "\n", ". ", " ", ""]`. -/
def defaultSeparators : List (List Char) :=
  [['\n', '\n'], ['\n'], ['.', ' '], [' '], []]

/-- `RecursiveCharacterTextSplitter.split_text` with the default separators
and `keep_separator = True`, for `chunk_size = cs` and `chunk_overlap = ov`. -/
def split_text (cs ov : Nat) (text : List Char) : List (List Char) :=
  splitTextInner cs ov true defaultSeparators.length defaultSeparators text

/- ----------------------------------------------------------------------
   Documents and metadata (src/utils/document.py)
   ---------------------------------------------------------------------- -/

/-- `Document` (src/utils/document.py): text content plus a metadata dict,
the dict modelled as an association list. -/
structure Document where
  page_content : String
  metadata : List (String × PyVal)
deriving DecidableEq

/-- Python dict update `{**md, k: v}` restricted to one key: replace the value
in place when the key is present, append otherwise (same lookup semantics as
the dict merge in `split_documents`). -/
def upsert (md : List (String × PyVal)) (k : String) (v : PyVal) : List (String × PyVal) :=
  if md.any (fun p => p.1 == k) then md.map (fun p => if p.1 == k then (k, v) else p)
  else md ++ [(k, v)]

/-- The metadata stamped on each produced chunk by
`BaseTextSplitter.split_documents` (lines 68-72):
`{**doc.metadata, "chunk_index": i, "chunk_count": n}`. -/
def stampMeta (md : List (String × PyVal)) (i n : Nat) : List (String × PyVal) :=
  upsert (upsert md "chunk_index" (.vint i)) "chunk_count" (.vint n)

/-- `BaseTextSplitter.split_documents` (lines 61-75), abstract in the
subclass's `split_text` (`splitFn`): split each document's text and wrap
every chunk as a new `Document` with stamped metadata, in order. -/
def split_documents (splitFn : String → List String) (docs : List Document) : List Document :=
  docs.flatMap (fun d =>
    let chunks := splitFn d.page_content
    chunks.enum.map (fun ic =>
      { page_content := ic.2, metadata := stampMeta d.metadata ic.1 chunks.length }))

/- ----------------------------------------------------------------------
   Similarity scoring (src/utils/similarity.py)
   ---------------------------------------------------------------------- -/

/-- `np.dot` on two 1-D vectors (sum of element-wise products). -/
noncomputable def dotR (a b : List ℝ) : ℝ :=
  (List.zipWith (· * ·) a b).sum

/-- `np.linalg.norm`: the L2 norm, square root of the sum of squares.
Floating point is idealised as `ℝ`. -/
noncomputable def normL2 (a : List ℝ) : ℝ :=
  Real.sqrt ((a.map (fun x => x * x)).sum)

/-- `np.clip(x, lo, hi)` for `lo ≤ hi`. -/
noncomputable def npClip (x lo hi : ℝ) : ℝ :=
  max lo (min hi x)

/-- `cosine_similarity` (src/utils/similarity.py lines 30-59): dot product
over the product of the two L2 norms, `0.0` when either norm is zero, result
clipped to `[-1, 1]`. -/
noncomputable def cosine_similarity (a b : List ℝ) : ℝ :=
  if normL2 a = 0 ∨ normL2 b = 0 then 0
  else npClip (dotR a b / (normL2 a * normL2 b)) (-1) 1

/- ----------------------------------------------------------------------
   Sorting by descending score
   (`scores.sort(key=lambda x: x[1], reverse=True)` in both stores; Python's
   sort is stable, and a stable descending sort is unique, so it is modelled
   by stable insertion sort on the score component.)
   ---------------------------------------------------------------------- -/

/-- Insert a scored item into a descending-sorted list, after every element
with a greater-or-equal score (stability for equal scores). -/
def insertDesc {α S : Type} [LinearOrder S] (x : α × S) : List (α × S) → List (α × S)
  | [] => [x]
  | y :: ys => if y.2 < x.2 then x :: y :: ys else y :: insertDesc x ys

/-- Stable sort by descending score
(`list.sort(key=lambda x: x[1], reverse=True)`). -/
def sortDesc {α S : Type} [LinearOrder S] (l : List (α × S)) : List (α × S) :=
  l.foldl (fun acc x => insertDesc x acc) []

/- ----------------------------------------------------------------------
   Errors (§7 taxonomy; both stores raise ValueError on a length mismatch,
   which the spec's taxonomy names DimensionMismatchError)
   ---------------------------------------------------------------------- -/

inductive StoreError where
  | dimensionMismatch
deriving DecidableEq

/-- `uuid.uuid4()` modelled as a fresh name drawn from a per-store counter
(the only properties the code relies on are opacity and freshness). -/
def mkUuid (n : Nat) : String :=
  "uuid-" ++ toString n

/- ----------------------------------------------------------------------
   InMemoryVectorStore (src/vector_stores/in_memory_vector_store.py)
   ---------------------------------------------------------------------- -/

/-- `InMemoryVectorStore`: three parallel lists plus the uuid counter
modelling `uuid.uuid4()` freshness. -/
structure InMemoryStore (Emb : Type) where
  documents : List Document
  embeddings : List Emb
  ids : List String
  nextUuid : Nat
deriving DecidableEq

/-- The empty store (`InMemoryVectorStore.__init__`). -/
def InMemoryStore.empty (Emb : Type) : InMemoryStore Emb :=
  ⟨[], [], [], 0⟩

/-- `InMemoryVectorStore.add_documents` (lines 50-69): raise on a length
mismatch before touching any state; otherwise append each document,
embedding and a fresh id (the `for doc, emb in zip(...)` loop appends
pairwise; with equal lengths this is appending both lists wholesale). -/
def InMemoryStore.add_documents {Emb : Type} (st : InMemoryStore Emb)
    (docs : List Document) (embs : List Emb) :
    InMemoryStore Emb × Except StoreError (List String) :=
  if docs.length ≠ embs.length then (st, .error .dimensionMismatch)
  else
    let newIds := (List.range docs.length).map (fun i => mkUuid (st.nextUuid + i))
    ({ documents := st.documents ++ docs,
       embeddings := st.embeddings ++ embs,
       ids := st.ids ++ newIds,
       nextUuid := st.nextUuid + docs.length }, .ok newIds)

/-- The per-document filter check of `InMemoryVectorStore.similarity_search`
(lines 98-104): every filter key must be present in the metadata with an
equal value. -/
def filterMatchMem (filter : List (String × PyVal)) (md : List (String × PyVal)) : Bool :=
  filter.all (fun kv => List.lookup kv.1 md == some kv.2)

/-- The candidate (document, embedding) pairs surviving the filter loop of
`InMemoryVectorStore.similarity_search` (an empty/absent filter admits
everything, mirroring `if filter:`).  Python keeps `(i, score)` pairs and
indexes `self.documents[i]`; carrying the document in the pair is the same
indirection. -/
def memCandidates {Emb : Type} (st : InMemoryStore Emb)
    (filter : List (String × PyVal)) : List (Document × Emb) :=
  (st.documents.zip st.embeddings).filter
    (fun p => filter.isEmpty || filterMatchMem filter p.1.metadata)

/-- `InMemoryVectorStore.similarity_search` (lines 81-121): empty store short
circuits to `[]`; otherwise sort the scored candidates by descending score
and return the first `k` documents with their scores. -/
def InMemoryStore.similarity_search {Emb S : Type} [LinearOrder S] (sim : Emb → Emb → S)
    (st : InMemoryStore Emb) (q : Emb) (k : Nat) (filter : List (String × PyVal)) :
    List (Document × S) :=
  if st.documents.isEmpty then []
  else
    (sortDesc ((memCandidates st filter).map (fun p => (p.1, sim q p.2)))).take k

/-- `InMemoryVectorStore.delete` (lines 128-146): keep the entries of the
three parallel lists whose id is not in the deletion set. -/
def InMemoryStore.delete {Emb : Type} (st : InMemoryStore Emb) (ids : List String) :
    InMemoryStore Emb :=
  let kept := (st.ids.zip (st.documents.zip st.embeddings)).filter
    (fun t => ¬ ids.contains t.1)
  { documents := kept.map (fun t => t.2.1),
    embeddings := kept.map (fun t => t.2.2),
    ids := kept.map (fun t => t.1),
    nextUuid := st.nextUuid }

/-- `InMemoryVectorStore.clear` (lines 157-160). -/
def InMemoryStore.clear {Emb : Type} (st : InMemoryStore Emb) : InMemoryStore Emb :=
  { documents := [], embeddings := [], ids := [], nextUuid := st.nextUuid }

/- ----------------------------------------------------------------------
   RedisVectorStore (src/vector_stores/redis_vector_store.py)
   ---------------------------------------------------------------------- -/

/-- The persisted record (`doc_data`, lines 133-141): id, content, embedding,
resolved collection and source, and the original metadata.  (`created_at` is
not modelled; no claim mentions it.) -/
structure RedisRec (Emb : Type) where
  id : String
  content : String
  embedding : Emb
  coll : PyVal
  source : PyVal
  metadata : List (String × PyVal)
deriving DecidableEq

/-- The Redis-backed store, modelled as the list of persisted records in
insertion order plus the uuid counter.  The collection/source index sets are
derived (`recs.filter`), which is faithful to states produced by
`add_documents`/`delete` (the pipelined index updates keep them in sync). -/
structure RedisStore (Emb : Type) where
  recs : List (RedisRec Emb)
  nextUuid : Nat
deriving DecidableEq

def RedisStore.empty (Emb : Type) : RedisStore Emb :=
  ⟨[], 0⟩

/-- `coll = collection or doc.metadata.get("collection", "default")`
(line 127); Python `or` falls through on falsy values (None or `""`). -/
def resolveColl (collArg : Option String) (md : List (String × PyVal)) : PyVal :=
  match collArg with
  | some s => if s ≠ "" then .vstr s else (List.lookup "collection" md).getD (.vstr "default")
  | none => (List.lookup "collection" md).getD (.vstr "default")

/-- `source = doc.metadata.get("source", "unknown")` (line 128). -/
def resolveSource (md : List (String × PyVal)) : PyVal :=
  (List.lookup "source" md).getD (.vstr "unknown")

/-- The record built for one `(doc, emb)` pair by `add_documents`
(lines 125-153), with `ie.1` the position used for the fresh id. -/
def mkRedisRec {Emb : Type} (collArg : Option String) (base : Nat)
    (ie : Nat × Document × Emb) : RedisRec Emb :=
  { id := mkUuid (base + ie.1),
    content := ie.2.1.page_content,
    embedding := ie.2.2,
    coll := resolveColl collArg ie.2.1.metadata,
    source := resolveSource ie.2.1.metadata,
    metadata := ie.2.1.metadata }

/-- `RedisVectorStore.add_documents` (lines 113-158): raise on a length
mismatch before any pipeline operation; otherwise persist one record per
`(doc, emb)` pair with a fresh id and return the ids. -/
def RedisStore.add_documents {Emb : Type} (st : RedisStore Emb)
    (docs : List Document) (embs : List Emb) (collArg : Option String) :
    RedisStore Emb × Except StoreError (List String) :=
  if docs.length ≠ embs.length then (st, .error .dimensionMismatch)
  else
    let newRecs := (docs.zip embs).enum.map (mkRedisRec collArg st.nextUuid)
    ({ recs := st.recs ++ newRecs, nextUuid := st.nextUuid + docs.length },
     .ok (newRecs.map (fun r => r.id)))

/-- The metadata-filter loop of `RedisVectorStore.similarity_search`
(lines 228-242): the `"collection"` key is compared against the record's
stored collection; every other key is compared against
`doc_data["metadata"].get(key)` (missing keys read as `None`). -/
def redisMatch {Emb : Type} (filter : List (String × PyVal)) (r : RedisRec Emb) : Bool :=
  filter.all (fun kv =>
    if kv.1 = "collection" then r.coll == kv.2
    else (List.lookup kv.1 r.metadata).getD .vnone == kv.2)

/-- The candidate records of `RedisVectorStore.similarity_search`
(lines 212-220): the collection index when `filter["collection"]` is truthy
(`_get_all_documents(collection)` checks `if collection:`), all records
otherwise. -/
def redisCandidates {Emb : Type} (st : RedisStore Emb)
    (filter : List (String × PyVal)) : List (RedisRec Emb) :=
  let collv := (List.lookup "collection" filter).getD .vnone
  if pyTruthy collv then st.recs.filter (fun r => r.coll == collv) else st.recs

/-- The candidates surviving the metadata-filter loop (lines 228-242);
Python skips the loop entirely for an empty/absent filter. -/
def redisFiltered {Emb : Type} (st : RedisStore Emb)
    (filter : List (String × PyVal)) : List (RedisRec Emb) :=
  if filter.isEmpty then redisCandidates st filter
  else (redisCandidates st filter).filter (redisMatch filter)

/-- The scoring and ranking of `RedisVectorStore.similarity_search`
(lines 206-262), returning the selected records with their scores (the
wrapping into `Document`s is `RedisStore.similarity_search` below); an empty
candidate set short-circuits to `[]`. -/
def RedisStore.searchRecs {Emb S : Type} [LinearOrder S] (sim : Emb → Emb → S)
    (st : RedisStore Emb) (q : Emb) (k : Nat) (filter : List (String × PyVal)) :
    List (RedisRec Emb × S) :=
  if (redisCandidates st filter).isEmpty then []
  else
    (sortDesc ((redisFiltered st filter).map (fun r => (r, sim q r.embedding)))).take k

/-- `RedisVectorStore.similarity_search` (lines 206-269): the top-`k` records
re-wrapped as `Document(page_content=content, metadata=metadata)`. -/
def RedisStore.similarity_search {Emb S : Type} [LinearOrder S] (sim : Emb → Emb → S)
    (st : RedisStore Emb) (q : Emb) (k : Nat) (filter : List (String × PyVal)) :
    List (Document × S) :=
  (st.searchRecs sim q k filter).map (fun p => (⟨p.1.content, p.1.metadata⟩, p.2))

/-- `RedisVectorStore.delete` (lines 274-291): for each id that is present,
remove the record and its index memberships; ids not present are skipped
(no-op). -/
def RedisStore.delete {Emb : Type} (st : RedisStore Emb) (ids : List String) :
    RedisStore Emb :=
  { st with recs := st.recs.filter (fun r => ¬ ids.contains r.id) }

/-- `RedisVectorStore.delete_by_source` (lines 296-301): resolve the source
index, delete those ids and report their number; `0` when the index is
empty. -/
def RedisStore.delete_by_source {Emb : Type} (st : RedisStore Emb) (src : String) :
    RedisStore Emb × Nat :=
  let targets := (st.recs.filter (fun r => r.source == PyVal.vstr src)).map (fun r => r.id)
  if targets.isEmpty then (st, 0) else (st.delete targets, targets.length)

/-- `RedisVectorStore.delete_collection` (lines 306-311). -/
def RedisStore.delete_collection {Emb : Type} (st : RedisStore Emb) (c : String) :
    RedisStore Emb × Nat :=
  let targets := (st.recs.filter (fun r => r.coll == PyVal.vstr c)).map (fun r => r.id)
  if targets.isEmpty then (st, 0) else (st.delete targets, targets.length)

/-- `RedisVectorStore.clear_all` (lines 362-367). -/
def RedisStore.clear_all {Emb : Type} (st : RedisStore Emb) : RedisStore Emb × Nat :=
  let targets := st.recs.map (fun r => r.id)
  if targets.isEmpty then (st, 0) else (st.delete targets, targets.length)

/- ----------------------------------------------------------------------
   RedisRateLimiter (src/cache/query_cache.py lines 159-241)
   ---------------------------------------------------------------------- -/

/-- Rate limiter configuration (`max_requests`, `window_seconds`). -/
structure RLConfig where
  max_requests : Nat
  window_seconds : Nat
deriving DecidableEq

/-- The counter state for one identifier: `none` when no key exists, else the
current count together with the TTL set when the counter was created
(Redis `INCR` does not change a key's TTL). -/
abbrev RLState : Type := Option (Nat × Nat)

/-- `RedisRateLimiter.is_allowed` (lines 195-214): no counter → create it at
1 with TTL = window and allow; counter at or above the maximum → deny;
otherwise increment and allow. -/
def is_allowed (cfg : RLConfig) (st : RLState) : Bool × RLState :=
  match st with
  | none => (true, some (1, cfg.window_seconds))
  | some (c, t) =>
    if cfg.max_requests ≤ c then (false, some (c, t))
    else (true, some (c + 1, t))

/-- `RedisRateLimiter.get_remaining` (lines 223-230):
`max(0, max_requests - count)`, `max_requests` when no counter exists. -/
def get_remaining (cfg : RLConfig) (st : RLState) : Nat :=
  match st with
  | none => cfg.max_requests
  | some (c, _) => cfg.max_requests - c

/-- The parallel-lists invariant of `InMemoryVectorStore` (claim C10): the
three lists `documents`, `embeddings` and `ids` have equal length. -/
def parallelInv {Emb : Type} (st : InMemoryStore Emb) : Prop :=
  st.documents.length = st.embeddings.length ∧ st.documents.length = st.ids.length

/- ----------------------------------------------------------------------
   Helper lemmas: association-list lookup and descending sort
   ---------------------------------------------------------------------- -/

theorem lookup_mem {α β : Type} [BEq α] [LawfulBEq α] {k : α} {v : β} :
    ∀ {l : List (α × β)}, List.lookup k l = some v → (k, v) ∈ l := by
  intro l
  induction l with
  | nil => simp
  | cons p rest ih =>
    intro h
    rcases p with ⟨a, b⟩
    rw [List.lookup_cons] at h
    by_cases hk : k == a
    · simp only [hk] at h
      have ha : k = a := eq_of_beq hk
      have hb : b = v := by injection h
      subst ha; subst hb
      exact List.mem_cons_self _ _
    · simp only [Bool.of_not_eq_true hk] at h
      exact List.mem_cons_of_mem _ (ih h)

theorem mem_insertDesc {α S : Type} [LinearOrder S] {x z : α × S} :
    ∀ {l : List (α × S)}, z ∈ insertDesc x l → z = x ∨ z ∈ l := by
  intro l
  induction l with
  | nil => simp [insertDesc]
  | cons y ys ih =>
    intro h
    rw [insertDesc] at h
    split at h
    · rcases List.mem_cons.1 h with h' | h'
      · exact Or.inl h'
      · exact Or.inr h'
    · rcases List.mem_cons.1 h with h' | h'
      · exact Or.inr (by simp [h'])
      · rcases ih h' with h'' | h''
        · exact Or.inl h''
        · exact Or.inr (List.mem_cons_of_mem _ h'')

theorem insertDesc_perm {α S : Type} [LinearOrder S] (x : α × S) :
    ∀ (l : List (α × S)), List.Perm (insertDesc x l) (x :: l) := by
  intro l
  induction l with
  | nil => exact List.Perm.refl _
  | cons y ys ih =>
    rw [insertDesc]
    split
    · exact List.Perm.refl _
    · exact (List.Perm.cons y ih).trans (List.Perm.swap x y ys)

theorem foldl_insertDesc_perm {α S : Type} [LinearOrder S] :
    ∀ (l acc : List (α × S)),
      List.Perm (l.foldl (fun a x => insertDesc x a) acc) (acc ++ l) := by
  intro l
  induction l with
  | nil => intro acc; simp
  | cons x xs ih =>
    intro acc
    have h1 := ih (insertDesc x acc)
    have h2 : List.Perm (insertDesc x acc ++ xs) ((x :: acc) ++ xs) :=
      (insertDesc_perm x acc).append_right xs
    have h3 : List.Perm (acc ++ x :: xs) (x :: (acc ++ xs)) := List.perm_middle
    simp only [List.foldl_cons]
    exact (h1.trans h2).trans h3.symm

theorem sortDesc_perm {α S : Type} [LinearOrder S] (l : List (α × S)) :
    List.Perm (sortDesc l) l := by
  have := foldl_insertDesc_perm l []
  simpa [sortDesc] using this

theorem insertDesc_sorted {α S : Type} [LinearOrder S] (x : α × S) :
    ∀ {l : List (α × S)}, l.Pairwise (fun a b => b.2 ≤ a.2) →
      (insertDesc x l).Pairwise (fun a b => b.2 ≤ a.2) := by
  intro l
  induction l with
  | nil => intro _; simp [insertDesc]
  | cons y ys ih =>
    intro h
    rcases List.pairwise_cons.1 h with ⟨hy, hys⟩
    rw [insertDesc]
    split
    · next hlt =>
      refine List.pairwise_cons.2 ⟨?_, h⟩
      intro z hz
      rcases List.mem_cons.1 hz with h' | h'
      · subst h'; exact le_of_lt hlt
      · exact (hy z h').trans (le_of_lt hlt)
    · next hge =>
      refine List.pairwise_cons.2 ⟨?_, ih hys⟩
      intro z hz
      rcases mem_insertDesc hz with h' | h'
      · subst h'; exact not_lt.1 hge
      · exact hy z h'

theorem sortDesc_sorted {α S : Type} [LinearOrder S] (l : List (α × S)) :
    (sortDesc l).Pairwise (fun a b => b.2 ≤ a.2) := by
  rw [sortDesc]
  have aux : ∀ (l acc : List (α × S)), acc.Pairwise (fun a b => b.2 ≤ a.2) →
      (l.foldl (fun a x => insertDesc x a) acc).Pairwise (fun a b => b.2 ≤ a.2) := by
    intro l
    induction l with
    | nil => intro acc h; simpa using h
    | cons x xs ih => intro acc h; exact ih _ (insertDesc_sorted x h)
  exact aux l [] (by simp)

/- ----------------------------------------------------------------------
   C3: cosine similarity
   ---------------------------------------------------------------------- -/

/-- C3: `cosine_similarity` returns the dot product divided by the product of
the two L2 norms, clamped to `[-1, 1]`; a zero norm on either side yields
exactly `0` (total, no error); `cosine_similarity [1,0,0] [1,0,0] = 1`,
`cosine_similarity [1,0,0] [0,1,0] = 0`, and any vector against a zero vector
gives `0`. -/
theorem C3_cosine_similarity_spec :
    (∀ a b : List ℝ, normL2 a ≠ 0 → normL2 b ≠ 0 →
        cosine_similarity a b = max (-1) (min 1 (dotR a b / (normL2 a * normL2 b)))) ∧
    (∀ a b : List ℝ, normL2 a = 0 ∨ normL2 b = 0 → cosine_similarity a b = 0) ∧
    (∀ a b : List ℝ, -1 ≤ cosine_similarity a b ∧ cosine_similarity a b ≤ 1) ∧
    cosine_similarity [1, 0, 0] [1, 0, 0] = 1 ∧
    cosine_similarity [1, 0, 0] [0, 1, 0] = 0 ∧
    (∀ (a : List ℝ) (n : Nat), cosine_similarity a (List.replicate n 0) = 0) := by
  have hzero : ∀ n : Nat, normL2 (List.replicate n (0 : ℝ)) = 0 := by
    intro n
    simp [normL2, List.map_replicate]
  have hone : normL2 [(1 : ℝ), 0, 0] = 1 := by
    have : ((([(1 : ℝ), 0, 0]).map (fun x => x * x)).sum) = 1 := by norm_num
    rw [normL2, this, Real.sqrt_one]
  have honeB : normL2 [(0 : ℝ), 1, 0] = 1 := by
    have : ((([(0 : ℝ), 1, 0]).map (fun x => x * x)).sum) = 1 := by norm_num
    rw [normL2, this, Real.sqrt_one]
  refine ⟨?_, ?_, ?_, ?_, ?_, ?_⟩
  · intro a b ha hb
    rw [cosine_similarity, if_neg (by tauto), npClip]
  · intro a b h
    rw [cosine_similarity, if_pos h]
  · intro a b
    rw [cosine_similarity]
    split
    · norm_num
    · constructor
      · exact le_max_left _ _
      · exact max_le (by norm_num) (min_le_left _ _)
  · rw [cosine_similarity, if_neg (by rw [hone]; norm_num), npClip, hone]
    have : dotR [(1 : ℝ), 0, 0] [1, 0, 0] = 1 := by norm_num [dotR]
    rw [this]
    norm_num
  · rw [cosine_similarity, if_neg (by rw [hone, honeB]; norm_num), npClip, hone, honeB]
    have : dotR [(1 : ℝ), 0, 0] [0, 1, 0] = 0 := by norm_num [dotR]
    rw [this]
    norm_num
  · intro a n
    rw [cosine_similarity, if_pos (Or.inr (hzero n))]

/-- Witness for C3: the hypotheses of the formula clause hold at
`[1,0,0]` and `[0,1,0]`, where the clamped quotient evaluates to `0`. -/
theorem C3_cosine_similarity_spec_witness :
    normL2 [(1 : ℝ), 0, 0] ≠ 0 ∧ normL2 [(0 : ℝ), 1, 0] ≠ 0 ∧
    cosine_similarity [(1 : ℝ), 0, 0] [0, 1, 0] =
      max (-1) (min 1 (dotR [(1 : ℝ), 0, 0] [0, 1, 0] /
        (normL2 [(1 : ℝ), 0, 0] * normL2 [(0 : ℝ), 1, 0]))) := by
  have hone : normL2 [(1 : ℝ), 0, 0] = 1 := by
    have : ((([(1 : ℝ), 0, 0]).map (fun x => x * x)).sum) = 1 := by norm_num
    rw [normL2, this, Real.sqrt_one]
  have honeB : normL2 [(0 : ℝ), 1, 0] = 1 := by
    have : ((([(0 : ℝ), 1, 0]).map (fun x => x * x)).sum) = 1 := by norm_num
    rw [normL2, this, Real.sqrt_one]
  have ha : normL2 [(1 : ℝ), 0, 0] ≠ 0 := by rw [hone]; norm_num
  have hb : normL2 [(0 : ℝ), 1, 0] ≠ 0 := by rw [honeB]; norm_num
  exact ⟨ha, hb, C3_cosine_similarity_spec.1 _ _ ha hb⟩

/- ----------------------------------------------------------------------
   C4: add rejects mismatched batch lengths wholesale
   ---------------------------------------------------------------------- -/

/-- C4: when the documents and embeddings sequences differ in length, both
stores' `add_documents` fail with the dimension-mismatch error (Python
`ValueError`, the spec's `DimensionMismatchError`) and leave the store state
untouched, returning no ids. -/
theorem C4_add_rejects_mismatch {Emb : Type} (stM : InMemoryStore Emb) (stR : RedisStore Emb)
    (docs : List Document) (embs : List Emb) (collArg : Option String)
    (h : docs.length ≠ embs.length) :
    stM.add_documents docs embs = (stM, Except.error StoreError.dimensionMismatch) ∧
    stR.add_documents docs embs collArg = (stR, Except.error StoreError.dimensionMismatch) := by
  constructor
  · rw [InMemoryStore.add_documents, if_pos h]
  · rw [RedisStore.add_documents, if_pos h]

/-- Witness for C4 at a concrete mismatched batch. -/
theorem C4_add_rejects_mismatch_witness :
    ([(⟨"a", []⟩ : Document)].length ≠ ([] : List Unit).length) ∧
    (InMemoryStore.empty Unit).add_documents [⟨"a", []⟩] [] =
      (InMemoryStore.empty Unit, Except.error StoreError.dimensionMismatch) ∧
    (RedisStore.empty Unit).add_documents [⟨"a", []⟩] [] none =
      (RedisStore.empty Unit, Except.error StoreError.dimensionMismatch) :=
  ⟨by decide,
   (C4_add_rejects_mismatch (InMemoryStore.empty Unit) (RedisStore.empty Unit)
      [⟨"a", []⟩] [] none (by decide)).1,
   (C4_add_rejects_mismatch (InMemoryStore.empty Unit) (RedisStore.empty Unit)
      [⟨"a", []⟩] [] none (by decide)).2⟩

/- ----------------------------------------------------------------------
   C7: rate limiter
   ---------------------------------------------------------------------- -/

/-- C7: with `max_requests = 3`, `window_seconds = 60`, starting from no
counter, four successive `is_allowed` calls yield `true, true, true, false`
(the first call creates the counter at `1` with TTL equal to the window, each
allowed call below the maximum increments it, a call at the maximum is
denied); `get_remaining` after the third call is `0`, and `get_remaining`
with no counter is `max_requests`. -/
theorem C7_rate_limiter_spec :
    (is_allowed ⟨3, 60⟩ none = (true, some (1, 60))) ∧
    (is_allowed ⟨3, 60⟩ (some (1, 60)) = (true, some (2, 60))) ∧
    (is_allowed ⟨3, 60⟩ (some (2, 60)) = (true, some (3, 60))) ∧
    (is_allowed ⟨3, 60⟩ (some (3, 60)) = (false, some (3, 60))) ∧
    (get_remaining ⟨3, 60⟩ (some (3, 60)) = 0) ∧
    (get_remaining ⟨3, 60⟩ none = 3) ∧
    (∀ cfg : RLConfig, is_allowed cfg none = (true, some (1, cfg.window_seconds))) ∧
    (∀ (cfg : RLConfig) (c t : Nat), c < cfg.max_requests →
      is_allowed cfg (some (c, t)) = (true, some (c + 1, t))) ∧
    (∀ (cfg : RLConfig) (c t : Nat), cfg.max_requests ≤ c →
      is_allowed cfg (some (c, t)) = (false, some (c, t))) := by
  refine ⟨by decide, by decide, by decide, by decide, by decide, by decide, ?_, ?_, ?_⟩
  · intro cfg; rfl
  · intro cfg c t h
    rw [is_allowed, if_neg (Nat.not_le.2 h)]
  · intro cfg c t h
    rw [is_allowed, if_pos h]

/-- Witness for C7: the general clauses applied at the concrete trace. -/
theorem C7_rate_limiter_spec_witness :
    ((2 : Nat) < 3 ∧ is_allowed ⟨3, 60⟩ (some (2, 60)) = (true, some (3, 60))) ∧
    ((3 : Nat) ≤ 3 ∧ is_allowed ⟨3, 60⟩ (some (3, 60)) = (false, some (3, 60))) :=
  ⟨⟨by decide, C7_rate_limiter_spec.2.2.2.2.2.2.2.1 ⟨3, 60⟩ 2 60 (by decide)⟩,
   ⟨by decide, C7_rate_limiter_spec.2.2.2.2.2.2.2.2 ⟨3, 60⟩ 3 60 (by decide)⟩⟩

/- ----------------------------------------------------------------------
   C10: InMemory parallel-lists invariant
   ---------------------------------------------------------------------- -/

/-- C10: the three parallel lists of `InMemoryVectorStore` have equal length
for a new store and after every operation (including a failing add, which
leaves the state untouched); a successful add returns exactly one id per
document. -/
theorem C10_parallel_lists_invariant {Emb : Type} :
    parallelInv (InMemoryStore.empty Emb) ∧
    (∀ (st : InMemoryStore Emb) (docs : List Document) (embs : List Emb),
      parallelInv st → parallelInv (st.add_documents docs embs).1) ∧
    (∀ (st : InMemoryStore Emb) (docs : List Document) (embs : List Emb)
        (ids : List String),
      (st.add_documents docs embs).2 = Except.ok ids → ids.length = docs.length) ∧
    (∀ (st : InMemoryStore Emb) (ids : List String),
      parallelInv st → parallelInv (st.delete ids)) ∧
    (∀ st : InMemoryStore Emb, parallelInv st.clear) := by
  refine ⟨⟨rfl, rfl⟩, ?_, ?_, ?_, ?_⟩
  · intro st docs embs h
    rw [InMemoryStore.add_documents]
    by_cases hlen : docs.length ≠ embs.length
    · rw [if_pos hlen]; exact h
    · rw [if_neg hlen]
      rcases h with ⟨h1, h2⟩
      push_neg at hlen
      constructor
      · simp [h1, hlen]
      · simp [h2]
  · intro st docs embs ids h
    rw [InMemoryStore.add_documents] at h
    by_cases hlen : docs.length ≠ embs.length
    · rw [if_pos hlen] at h; cases h
    · rw [if_neg hlen] at h
      have : ((List.range docs.length).map (fun i => mkUuid (st.nextUuid + i))) = ids := by
        injection h
      rw [← this]
      simp
  · intro st ids _
    constructor <;> simp [InMemoryStore.delete]
  · intro st
    exact ⟨rfl, rfl⟩

/-- Witness for C10 at a concrete store and operation. -/
theorem C10_parallel_lists_invariant_witness :
    parallelInv ((InMemoryStore.empty Unit).delete ["x"]) ∧
    parallelInv ((InMemoryStore.empty Unit).add_documents [⟨"a", []⟩] [()]).1 :=
  ⟨C10_parallel_lists_invariant.2.2.2.1 (InMemoryStore.empty Unit) ["x"] ⟨rfl, rfl⟩,
   C10_parallel_lists_invariant.2.1 (InMemoryStore.empty Unit) [⟨"a", []⟩] [()] ⟨rfl, rfl⟩⟩

/- ----------------------------------------------------------------------
   C9: split_documents metadata stamping
   ---------------------------------------------------------------------- -/

theorem lookup_map_upd {md : List (String × PyVal)} {k k' : String} {v : PyVal}
    (h : k' ≠ k) :
    List.lookup k' (md.map (fun p => if p.1 == k then (k, v) else p)) =
      List.lookup k' md := by
  induction md with
  | nil => simp
  | cons q rest ih =>
    rcases q with ⟨qk, qv⟩
    by_cases hq : qk = k
    · subst hq
      have h2 : (k' == qk) = false := beq_eq_false_iff_ne.2 h
      simp [List.lookup_cons, h2]
      simpa using ih
    · cases hbk : (k' == qk) with
      | true => simp [List.lookup_cons, hq, hbk]
      | false =>
        simp [List.lookup_cons, hq, hbk]
        simpa using ih

theorem lookup_append_single {md : List (String × PyVal)} {k k' : String} {v : PyVal}
    (h : k' ≠ k) :
    List.lookup k' (md ++ [(k, v)]) = List.lookup k' md := by
  induction md with
  | nil => simp [List.lookup_cons, beq_eq_false_iff_ne.2 h]
  | cons q rest ih =>
    rcases q with ⟨qk, qv⟩
    cases hbk : (k' == qk) with
    | true => simp [List.lookup_cons, hbk]
    | false =>
      simp [List.lookup_cons, hbk]
      simpa using ih

theorem lookup_upsert_other {md : List (String × PyVal)} {k k' : String} {v : PyVal}
    (h : k' ≠ k) :
    List.lookup k' (upsert md k v) = List.lookup k' md := by
  rw [upsert]
  split
  · exact lookup_map_upd h
  · exact lookup_append_single h

theorem lookup_upsert_self (md : List (String × PyVal)) (k : String) (v : PyVal) :
    List.lookup k (upsert md k v) = some v := by
  rw [upsert]
  split
  · next hany =>
    rcases List.any_eq_true.1 hany with ⟨p, hp, hpk⟩
    have hk : p.1 = k := beq_iff_eq.1 hpk
    clear hany hpk
    induction md with
    | nil => cases hp
    | cons q rest ih =>
      rcases q with ⟨qk, qv⟩
      by_cases hq : qk = k
      · subst hq
        simp [List.lookup_cons]
      · have hbk : (k == qk) = false := beq_eq_false_iff_ne.2 (fun he => hq he.symm)
        simp [List.lookup_cons, hq, hbk]
        apply (by simpa using ih :
          p ∈ rest → List.lookup k (rest.map (fun p => if p.1 = k then (k, v) else p)) = some v)
        rcases List.mem_cons.1 hp with h' | h'
        · exfalso; apply hq; rw [← hk, h']
        · exact h'
  · next hany =>
    have hnone : ∀ p ∈ md, p.1 ≠ k := by
      intro p hp he
      exact hany (List.any_eq_true.2 ⟨p, hp, beq_iff_eq.2 he⟩)
    clear hany
    induction md with
    | nil => simp [List.lookup_cons]
    | cons q rest ih =>
      rcases q with ⟨qk, qv⟩
      have hq : qk ≠ k := hnone (qk, qv) (List.mem_cons_self _ _)
      have hbk : (k == qk) = false := beq_eq_false_iff_ne.2 (fun he => hq he.symm)
      simp [List.lookup_cons, hbk]
      exact ih (fun p hp => hnone p (List.mem_cons_of_mem _ hp))

/-- C9: `split_documents` emits, per input document and in order of
production, one chunk document per text chunk, whose metadata is the source
metadata with `chunk_index` set to the chunk's 0-based position,
`chunk_count` set to the number of chunks of that document, and every other
key unchanged. -/
theorem C9_split_documents_spec (f : String → List String) :
    (∀ d1 d2 : List Document,
      split_documents f (d1 ++ d2) = split_documents f d1 ++ split_documents f d2) ∧
    (∀ docs : List Document,
      split_documents f docs = docs.flatMap (fun d => split_documents f [d])) ∧
    (∀ d : Document, (split_documents f [d]).length = (f d.page_content).length) ∧
    (∀ (d : Document) (i : Nat), i < (f d.page_content).length →
      ((split_documents f [d]).getD i ⟨"", []⟩).page_content =
          (f d.page_content).getD i "" ∧
      List.lookup "chunk_index" ((split_documents f [d]).getD i ⟨"", []⟩).metadata =
          some (.vint i) ∧
      List.lookup "chunk_count" ((split_documents f [d]).getD i ⟨"", []⟩).metadata =
          some (.vint (f d.page_content).length) ∧
      (∀ key : String, key ≠ "chunk_index" → key ≠ "chunk_count" →
        List.lookup key ((split_documents f [d]).getD i ⟨"", []⟩).metadata =
          List.lookup key d.metadata)) := by
  have happ : ∀ d1 d2 : List Document,
      split_documents f (d1 ++ d2) = split_documents f d1 ++ split_documents f d2 := by
    intro d1 d2
    simp [split_documents]
  have hsingle : ∀ d : Document,
      split_documents f [d] =
        (f d.page_content).enum.map (fun ic =>
          { page_content := ic.2,
            metadata := stampMeta d.metadata ic.1 (f d.page_content).length }) := by
    intro d
    simp [split_documents]
  refine ⟨happ, ?_, ?_, ?_⟩
  · intro docs
    induction docs with
    | nil => simp [split_documents]
    | cons d rest ih =>
      have h1 : d :: rest = [d] ++ rest := rfl
      rw [h1, happ, ih, List.flatMap_append]
      simp
  · intro d
    rw [hsingle]
    simp [List.enum_length]
  · intro d i hi
    have hx := List.getElem?_eq_getElem hi
    have hget : (split_documents f [d]).getD i ⟨"", []⟩ =
        { page_content := (f d.page_content).getD i "",
          metadata := stampMeta d.metadata i (f d.page_content).length } := by
      simp [hsingle, List.getD_eq_getElem?_getD, List.getElem?_map, List.getElem?_enum, hx]
    rw [hget]
    refine ⟨rfl, ?_, ?_, ?_⟩
    · rw [stampMeta, lookup_upsert_other (by decide), lookup_upsert_self]
    · rw [stampMeta, lookup_upsert_self]
    · intro key h1 h2
      rw [stampMeta, lookup_upsert_other h2, lookup_upsert_other h1]

/-- Witness for C9 at a concrete splitter and document. -/
theorem C9_split_documents_spec_witness :
    (0 < (["ab", "cd"] : List String).length) ∧
    ((split_documents (fun _ => ["ab", "cd"]) [⟨"abcd", [("source", .vstr "s")]⟩]).getD 0
        ⟨"", []⟩).page_content = "ab" := by
  refine ⟨by decide, ?_⟩
  have h := (C9_split_documents_spec (fun _ => ["ab", "cd"])).2.2.2
    ⟨"abcd", [("source", .vstr "s")]⟩ 0 (by decide)
  exact h.1

/- ----------------------------------------------------------------------
   C8: deletion is idempotent
   ---------------------------------------------------------------------- -/

theorem zip_map_eta {α β γ : Type} : ∀ l : List (α × β × γ),
    (l.map (fun t => t.1)).zip ((l.map (fun t => t.2.1)).zip (l.map (fun t => t.2.2))) = l := by
  intro l
  induction l with
  | nil => rfl
  | cons t rest ih => simp [List.zip_cons_cons, ih]

theorem delete_removes_targets {Emb : Type} (st : RedisStore Emb) (p : RedisRec Emb → Bool) :
    (st.delete ((st.recs.filter p).map (fun r => r.id))).recs.filter p = [] := by
  rw [RedisStore.delete]
  apply List.filter_eq_nil_iff.2
  intro r hr hp
  rcases List.mem_filter.1 hr with ⟨hrec, hkeep⟩
  have hmem : r.id ∈ (st.recs.filter p).map (fun r => r.id) :=
    List.mem_map_of_mem _ (List.mem_filter.2 ⟨hrec, hp⟩)
  have hcon : ((st.recs.filter p).map (fun r => r.id)).contains r.id = true :=
    List.elem_iff.2 hmem
  rw [decide_eq_true_eq] at hkeep
  exact hkeep hcon

/-- C8: deletion is idempotent in both stores: deleting absent ids is a
no-op that succeeds; a second `delete` of the same id set changes nothing;
and `delete_by_source`, `delete_collection` and `clear_all` report `0`
removed on a second call. -/
theorem C8_delete_idempotent {Emb : Type} :
    (∀ (st : InMemoryStore Emb) (ids : List String), parallelInv st →
      (∀ i ∈ ids, i ∉ st.ids) → st.delete ids = st) ∧
    (∀ (st : InMemoryStore Emb) (ids : List String),
      (st.delete ids).delete ids = st.delete ids) ∧
    (∀ (st : RedisStore Emb) (ids : List String),
      (∀ i ∈ ids, ∀ r ∈ st.recs, r.id ≠ i) → st.delete ids = st) ∧
    (∀ (st : RedisStore Emb) (ids : List String),
      (st.delete ids).delete ids = st.delete ids) ∧
    (∀ (st : RedisStore Emb) (src : String),
      ((st.delete_by_source src).1.delete_by_source src).2 = 0) ∧
    (∀ (st : RedisStore Emb) (c : String),
      ((st.delete_collection c).1.delete_collection c).2 = 0) ∧
    (∀ st : RedisStore Emb, (st.clear_all.1.clear_all).2 = 0) := by
  refine ⟨?_, ?_, ?_, ?_, ?_, ?_, ?_⟩
  · intro st ids hinv h
    rcases st with ⟨d, e, idsl, n⟩
    have h1 : d.length = e.length := hinv.1
    have h2 : d.length = idsl.length := hinv.2
    rw [InMemoryStore.delete]
    have hfil : (idsl.zip (d.zip e)).filter (fun t => ¬ ids.contains t.1) =
        idsl.zip (d.zip e) := by
      apply List.filter_eq_self.2
      intro t ht
      have hmem : t.1 ∈ idsl := (List.of_mem_zip ht).1
      exact decide_eq_true (fun hc => h t.1 (List.elem_iff.1 hc) hmem)
    rw [hfil]
    have hde : d.length ≤ e.length := le_of_eq h1
    have hzlen : (d.zip e).length = d.length := by
      rw [List.length_zip]; omega
    have hid : idsl.length ≤ (d.zip e).length := by omega
    have hzid : (d.zip e).length ≤ idsl.length := by omega
    have hmap1 : (idsl.zip (d.zip e)).map (fun t => t.2.1) = d := by
      have hm : (idsl.zip (d.zip e)).map (fun t => t.2.1) =
          ((idsl.zip (d.zip e)).map Prod.snd).map Prod.fst := by
        rw [List.map_map]; rfl
      rw [hm, List.map_snd_zip _ _ hzid, List.map_fst_zip _ _ hde]
    have hmap2 : (idsl.zip (d.zip e)).map (fun t => t.2.2) = e := by
      have hm : (idsl.zip (d.zip e)).map (fun t => t.2.2) =
          ((idsl.zip (d.zip e)).map Prod.snd).map Prod.snd := by
        rw [List.map_map]; rfl
      rw [hm, List.map_snd_zip _ _ hzid, List.map_snd_zip _ _ (le_of_eq h1.symm)]
    have hmap3 : (idsl.zip (d.zip e)).map (fun t => t.1) = idsl := by
      have hm : (idsl.zip (d.zip e)).map (fun t => t.1) =
          (idsl.zip (d.zip e)).map Prod.fst := rfl
      rw [hm, List.map_fst_zip _ _ hid]
    rw [hmap1, hmap2, hmap3]
  · intro st ids
    rcases st with ⟨d, e, idsl, n⟩
    rw [InMemoryStore.delete, InMemoryStore.delete]
    rw [zip_map_eta]
    have hff : ((idsl.zip (d.zip e)).filter (fun t => ¬ ids.contains t.1)).filter
        (fun t => ¬ ids.contains t.1) =
        (idsl.zip (d.zip e)).filter (fun t => ¬ ids.contains t.1) := by
      apply List.filter_eq_self.2
      intro t ht
      exact (List.mem_filter.1 ht).2
    rw [hff]
  · intro st ids h
    rcases st with ⟨recs, n⟩
    rw [RedisStore.delete]
    have hfil : recs.filter (fun r => ¬ ids.contains r.id) = recs := by
      apply List.filter_eq_self.2
      intro r hr
      exact decide_eq_true (fun hc => h r.id (List.elem_iff.1 hc) r hr rfl)
    rw [hfil]
  · intro st ids
    rcases st with ⟨recs, n⟩
    rw [RedisStore.delete, RedisStore.delete]
    have hff : (recs.filter (fun r => ¬ ids.contains r.id)).filter
        (fun r => ¬ ids.contains r.id) =
        recs.filter (fun r => ¬ ids.contains r.id) := by
      apply List.filter_eq_self.2
      intro r hr
      exact (List.mem_filter.1 hr).2
    rw [hff]
  · intro st src
    have hzero : ((st.delete_by_source src).1.recs.filter
        (fun r => r.source == PyVal.vstr src)).map (fun r => r.id) = [] := by
      rw [RedisStore.delete_by_source]
      split
      · next hemp =>
        exact List.isEmpty_iff.1 hemp
      · next hemp =>
        rw [delete_removes_targets st (fun r => r.source == PyVal.vstr src)]
        rfl
    rw [RedisStore.delete_by_source, hzero]
    simp
  · intro st c
    have hzero : ((st.delete_collection c).1.recs.filter
        (fun r => r.coll == PyVal.vstr c)).map (fun r => r.id) = [] := by
      rw [RedisStore.delete_collection]
      split
      · next hemp =>
        exact List.isEmpty_iff.1 hemp
      · next hemp =>
        rw [delete_removes_targets st (fun r => r.coll == PyVal.vstr c)]
        rfl
    rw [RedisStore.delete_collection, hzero]
    simp
  · intro st
    have h0 : ∀ s : RedisStore Emb, (s.delete (s.recs.map (fun r => r.id))).recs = [] := by
      intro s
      rw [RedisStore.delete]
      apply List.filter_eq_nil_iff.2
      intro r hr hp
      rw [decide_eq_true_eq] at hp
      exact hp (List.elem_iff.2 (List.mem_map_of_mem _ hr))
    have hzero : st.clear_all.1.recs.map (fun r => r.id) = [] := by
      rw [RedisStore.clear_all]
      split
      · next hemp =>
        exact List.isEmpty_iff.1 hemp
      · next hemp =>
        rw [h0]
        rfl
    rw [RedisStore.clear_all, hzero]
    simp

/-- Witness for C8: the hypothesis-bearing clauses at concrete stores. -/
theorem C8_delete_idempotent_witness :
    (parallelInv (InMemoryStore.empty Unit) ∧
      (∀ i ∈ ["x"], i ∉ (InMemoryStore.empty Unit).ids) ∧
      (InMemoryStore.empty Unit).delete ["x"] = InMemoryStore.empty Unit) ∧
    ((∀ i ∈ ["x"], ∀ r ∈ (RedisStore.empty Unit).recs, r.id ≠ i) ∧
      (RedisStore.empty Unit).delete ["x"] = RedisStore.empty Unit) :=
  ⟨⟨⟨rfl, rfl⟩, by decide,
    (@C8_delete_idempotent Unit).1 (InMemoryStore.empty Unit) ["x"]
      ⟨rfl, rfl⟩ (by decide)⟩,
   ⟨by decide,
    (@C8_delete_idempotent Unit).2.2.1 (RedisStore.empty Unit) ["x"] (by decide)⟩⟩


/- ----------------------------------------------------------------------
   C2: similarity search contract (≤ k, descending, empty on no candidates)
   ---------------------------------------------------------------------- -/

/-- C2: in both stores, `similarity_search` returns at most `k` results,
sorted by descending score, and returns the empty sequence (rather than an
error) when no candidate survives the filter — in particular on an empty
store. -/
theorem C2_similarity_search_contract {Emb S : Type} [LinearOrder S] (sim : Emb → Emb → S)
    (stM : InMemoryStore Emb) (stR : RedisStore Emb) (q : Emb) (k : Nat)
    (filter : List (String × PyVal)) :
    ((stM.similarity_search sim q k filter).length ≤ k ∧
      (stM.similarity_search sim q k filter).Pairwise (fun a b => b.2 ≤ a.2) ∧
      (stM.documents = [] → stM.similarity_search sim q k filter = []) ∧
      (memCandidates stM filter = [] → stM.similarity_search sim q k filter = [])) ∧
    ((stR.similarity_search sim q k filter).length ≤ k ∧
      (stR.similarity_search sim q k filter).Pairwise (fun a b => b.2 ≤ a.2) ∧
      (stR.recs = [] → stR.similarity_search sim q k filter = []) ∧
      (redisFiltered stR filter = [] → stR.similarity_search sim q k filter = [])) := by
  constructor
  · refine ⟨?_, ?_, ?_, ?_⟩
    · rw [InMemoryStore.similarity_search]
      split
      · simp
      · rw [List.length_take]
        exact min_le_left _ _
    · rw [InMemoryStore.similarity_search]
      split
      · exact List.Pairwise.nil
      · exact List.Pairwise.sublist (List.take_sublist _ _) (sortDesc_sorted _)
    · intro h
      rw [InMemoryStore.similarity_search, if_pos (by rw [h]; rfl)]
    · intro h
      rw [InMemoryStore.similarity_search]
      split
      · rfl
      · rw [h]
        simp [sortDesc]
  · refine ⟨?_, ?_, ?_, ?_⟩
    · rw [RedisStore.similarity_search, RedisStore.searchRecs]
      split
      · simp
      · rw [List.length_map, List.length_take]
        exact min_le_left _ _
    · rw [RedisStore.similarity_search, RedisStore.searchRecs]
      split
      · exact List.Pairwise.nil
      · refine List.Pairwise.map _ ?_
          (List.Pairwise.sublist (List.take_sublist _ _) (sortDesc_sorted _))
        intro a b hab
        exact hab
    · intro h
      have hc : redisCandidates stR filter = [] := by
        rw [redisCandidates]
        split
        · rw [h]; rfl
        · exact h
      rw [RedisStore.similarity_search, RedisStore.searchRecs, if_pos (by rw [hc]; rfl)]
      rfl
    · intro h
      rw [RedisStore.similarity_search, RedisStore.searchRecs]
      split
      · rfl
      · rw [h]
        simp [sortDesc]

/- ----------------------------------------------------------------------
   C5: collection isolation
   ---------------------------------------------------------------------- -/

/-- C5: when the filter contains a `collection` entry, every result of
`similarity_search` has that stored collection: in the in-memory store, the
returned document's metadata maps `"collection"` to the filter's value; in
the Redis store, every selected record's stored collection equals the
filter's value.  In particular a chunk stored in collection `"B"` is never
returned for a `collection = "A"` filter. -/
theorem C5_collection_isolation {Emb S : Type} [LinearOrder S] (sim : Emb → Emb → S)
    (stM : InMemoryStore Emb) (stR : RedisStore Emb) (q : Emb) (k : Nat)
    (filter : List (String × PyVal)) (v : PyVal)
    (hf : List.lookup "collection" filter = some v) :
    (∀ p ∈ stM.similarity_search sim q k filter,
      List.lookup "collection" p.1.metadata = some v) ∧
    (∀ p ∈ stR.searchRecs sim q k filter, p.1.coll = v) := by
  have hfne : filter ≠ [] := by
    intro h
    rw [h] at hf
    cases hf
  have hie : filter.isEmpty = false := by
    cases hh : filter.isEmpty
    · rfl
    · exact absurd (List.isEmpty_iff.1 hh) hfne
  have hentry : ("collection", v) ∈ filter := lookup_mem hf
  constructor
  · intro p hp
    rw [InMemoryStore.similarity_search] at hp
    split at hp
    · cases hp
    · have h2 := (List.take_sublist k _).subset hp
      have h3 := (sortDesc_perm _).mem_iff.1 h2
      rcases List.mem_map.1 h3 with ⟨p0, hp0, hpe⟩
      rcases List.mem_filter.1 hp0 with ⟨_, hpred⟩
      rw [hie, Bool.false_or] at hpred
      have hall := List.all_eq_true.1 hpred ("collection", v) hentry
      have hlk : List.lookup "collection" p0.1.metadata = some v := by
        have h4 : (List.lookup "collection" p0.1.metadata == some v) = true := hall
        exact eq_of_beq h4
      rw [← hpe]
      exact hlk
  · intro p hp
    rw [RedisStore.searchRecs] at hp
    split at hp
    · cases hp
    · have h2 := (List.take_sublist k _).subset hp
      have h3 := (sortDesc_perm _).mem_iff.1 h2
      rcases List.mem_map.1 h3 with ⟨r, hr, hre⟩
      rw [redisFiltered, hie] at hr
      simp only [Bool.false_eq_true, if_neg] at hr
      have hmatch : redisMatch filter r = true := (List.mem_filter.1 hr).2
      have hall := List.all_eq_true.1 hmatch ("collection", v) hentry
      simp only [if_pos rfl] at hall
      have hcoll : r.coll = v := by
        have h4 : (r.coll == v) = true := by simpa using hall
        exact eq_of_beq h4
      rw [← hre]
      exact hcoll

/-- Witness for C5 at a concrete pair of stores. -/
theorem C5_collection_isolation_witness :
    (List.lookup "collection" [("collection", PyVal.vstr "A")] = some (PyVal.vstr "A")) ∧
    (∀ p ∈ InMemoryStore.similarity_search (fun x y : Int => x * y)
        ⟨[⟨"c1", [("collection", .vstr "A")]⟩, ⟨"c2", [("collection", .vstr "B")]⟩],
          [1, 2], ["i1", "i2"], 2⟩ 1 5 [("collection", PyVal.vstr "A")],
      List.lookup "collection" p.1.metadata = some (PyVal.vstr "A")) := by
  refine ⟨by decide, ?_⟩
  exact (C5_collection_isolation (fun x y : Int => x * y) _
    (RedisStore.empty Int) 1 5 [("collection", PyVal.vstr "A")]
    (PyVal.vstr "A") (by decide)).1

/-- Witness for C2: the empty-store clause at a concrete store. -/
theorem C2_similarity_search_contract_witness :
    (InMemoryStore.empty Int).documents = [] ∧
    InMemoryStore.similarity_search (fun x y : Int => x * y)
      (InMemoryStore.empty Int) 1 3 [] = [] ∧
    RedisStore.similarity_search (fun x y : Int => x * y)
      (RedisStore.empty Int) 1 3 [] = [] :=
  ⟨rfl,
   (C2_similarity_search_contract (fun x y : Int => x * y)
      (InMemoryStore.empty Int) (RedisStore.empty Int) 1 3 []).1.2.2.1 rfl,
   (C2_similarity_search_contract (fun x y : Int => x * y)
      (InMemoryStore.empty Int) (RedisStore.empty Int) 1 3 []).2.2.2.1 rfl⟩

/- ----------------------------------------------------------------------
   C1: chunk-size bound of the splitter
   ---------------------------------------------------------------------- -/

theorem sumLen_append (a b : List (List Char)) : sumLen (a ++ b) = sumLen a + sumLen b := by
  simp [sumLen]

theorem sumLen_reverse (a : List (List Char)) : sumLen a.reverse = sumLen a := by
  simp [sumLen, List.sum_reverse]

theorem joinSep_nil_length : ∀ l : List (List Char), (joinSep [] l).length = sumLen l := by
  intro l
  match l with
  | [] => rfl
  | [x] => simp [joinSep, sumLen]
  | x :: y :: t =>
    rw [joinSep]
    have ih := joinSep_nil_length (y :: t)
    simp [sumLen] at ih ⊢
    omega

theorem keepCount_sumLen (M : Nat) : ∀ (ov : Nat) (l : List (List Char)),
    (∀ p ∈ l, p.length ≤ M) → sumLen (l.take (keepCount ov l)) ≤ ov + M := by
  intro ov l
  induction l generalizing ov with
  | nil => intro _; simp [keepCount, sumLen]
  | cons p rest ih =>
    intro h
    rw [keepCount]
    split
    · next hle =>
      have hp := h p (List.mem_cons_self _ _)
      simp [sumLen]
      omega
    · next hgt =>
      by_cases hk : keepCount (ov - p.length) rest = 0
      · simp [hk, sumLen]
      · simp only [if_neg hk]
        rw [List.take_succ_cons]
        have hrest := ih (ov - p.length) (fun x hx => h x (List.mem_cons_of_mem _ hx))
        have hp := h p (List.mem_cons_self _ _)
        have hlt : p.length < ov := Nat.lt_of_not_le hgt
        have hsum : sumLen (p :: List.take (keepCount (ov - p.length) rest) rest) =
            p.length + sumLen (List.take (keepCount (ov - p.length) rest) rest) := by
          simp [sumLen]
        omega

theorem mem_of_mem_seed {p : List Char} {cur : List (List Char)} {k : Nat}
    (h : p ∈ (cur.reverse.take k).reverse) : p ∈ cur := by
  have h1 := List.mem_reverse.1 h
  have h2 := (List.take_sublist _ _).subset h1
  exact List.mem_reverse.1 h2

theorem merge_fold_inv (cs ov : Nat) :
    ∀ (splits : List (List Char)) (st : MergeSt),
      (∀ s ∈ splits, s.length < cs) →
      (∀ ch ∈ st.chunks, ch.length ≤ 2 * cs + ov) →
      st.curLen = sumLen st.cur →
      (∀ p ∈ st.cur, p.length < cs) →
      st.curLen ≤ 2 * cs + ov →
      (∀ ch ∈ (splits.foldl (mergeStep cs ov []) st).chunks, ch.length ≤ 2 * cs + ov) ∧
      (splits.foldl (mergeStep cs ov []) st).curLen =
        sumLen (splits.foldl (mergeStep cs ov []) st).cur ∧
      (∀ p ∈ (splits.foldl (mergeStep cs ov []) st).cur, p.length < cs) ∧
      (splits.foldl (mergeStep cs ov []) st).curLen ≤ 2 * cs + ov := by
  intro splits
  induction splits with
  | nil =>
    intro st _ h1 h2 h3 h4
    exact ⟨h1, h2, h3, h4⟩
  | cons s rest ih =>
    intro st hsp h1 h2 h3 h4
    have hs : s.length < cs := hsp s (List.mem_cons_self _ _)
    have hrest : ∀ x ∈ rest, x.length < cs := fun x hx => hsp x (List.mem_cons_of_mem _ hx)
    rw [List.foldl_cons]
    apply ih _ hrest
    all_goals rw [mergeStep]
    all_goals split
    -- close branch: chunks bound
    · next hclose =>
      intro ch hch
      rcases List.mem_append.1 hch with h' | h'
      · exact h1 ch h'
      · rcases List.mem_singleton.1 h' with rfl
        rw [joinSep_nil_length]
        rw [← h2]
        exact h4
    · next hopen =>
      exact fun ch hch => h1 ch hch
    -- curLen = sumLen cur
    · next hclose =>
      simp only
      rw [sumLen_append, sumLen_reverse, sumLen]
      simp [sumLen_reverse]
      rw [← sumLen_reverse]
      simp [sumLen]
    · next hopen =>
      simp only
      rw [sumLen_append, h2]
      simp [sumLen]
    -- cur pieces < cs
    · next hclose =>
      intro p hp
      rcases List.mem_append.1 hp with h' | h'
      · exact h3 p (mem_of_mem_seed h')
      · rcases List.mem_singleton.1 h' with rfl
        exact hs
    · next hopen =>
      intro p hp
      rcases List.mem_append.1 hp with h' | h'
      · exact h3 p h'
      · rcases List.mem_singleton.1 h' with rfl
        exact hs
    -- curLen ≤ bound
    · next hclose =>
      simp only
      have hseed : sumLen ((st.cur.reverse.take (keepCount ov st.cur.reverse)).reverse) ≤
          ov + (cs - 1) := by
        rw [sumLen_reverse]
        apply keepCount_sumLen
        intro p hp
        have := h3 p (List.mem_reverse.1 hp)
        omega
      have hcs : 1 ≤ cs := by
        have := hs
        omega
      omega
    · next hopen =>
      simp only
      rw [Decidable.not_and_iff_or_not] at hopen
      rcases hopen with h' | h'
      · have := Nat.le_of_not_lt h'
        omega
      · have hnil : st.cur = [] := Decidable.of_not_not h'
        have : st.curLen = 0 := by
          rw [h2, hnil]
          rfl
        omega

theorem merge_splits_bound {cs ov : Nat} {splits : List (List Char)}
    (h : ∀ s ∈ splits, s.length < cs) :
    ∀ ch ∈ merge_splits cs ov [] splits, ch.length ≤ 2 * cs + ov := by
  have hinv := merge_fold_inv cs ov splits ⟨[], [], 0⟩ h (by simp) rfl (by simp) (by simp)
  rw [merge_splits]
  split
  · exact hinv.1
  · intro ch hch
    rcases List.mem_append.1 hch with h' | h'
    · exact hinv.1 ch h'
    · rcases List.mem_singleton.1 h' with rfl
      rw [joinSep_nil_length, ← hinv.2.1]
      exact hinv.2.2.2

theorem procLoop_bound (cs ov : Nat) (keep : Bool) (sep : List Char) (hasNew : Bool) :
    ∀ (pairs : List (List Char × List (List Char))) (good finals : List (List Char)),
      (∀ p ∈ good, p.length < cs) →
      (∀ ch ∈ finals, ch.length ≤ 2 * cs + ov) →
      (∀ pr ∈ pairs, ∀ ch ∈ pr.2, ch.length ≤ 2 * cs + ov) →
      (hasNew = false → ∀ pr ∈ pairs, (withSep keep sep pr.1).length ≤ 2 * cs + ov) →
      ∀ ch ∈ procLoop cs ov keep sep hasNew pairs good finals, ch.length ≤ 2 * cs + ov := by
  intro pairs
  induction pairs with
  | nil =>
    intro good finals hg hf _ _ ch hch
    rw [procLoop] at hch
    rcases List.mem_append.1 hch with h' | h'
    · exact hf ch h'
    · exact merge_splits_bound hg ch h'
  | cons pr rest ih =>
    intro good finals hg hf hsub hverb ch hch
    rcases pr with ⟨s, sub⟩
    rw [procLoop] at hch
    split at hch
    · next hlt =>
      refine ih _ _ ?_ hf ?_ ?_ ch hch
      · intro p hp
        rcases List.mem_append.1 hp with h' | h'
        · exact hg p h'
        · rcases List.mem_singleton.1 h' with rfl
          exact hlt
      · intro q hq
        exact hsub q (List.mem_cons_of_mem _ hq)
      · intro hh q hq
        exact hverb hh q (List.mem_cons_of_mem _ hq)
    · next hge =>
      split at hch
      · next hnew =>
        refine ih _ _ (by simp) ?_ ?_ ?_ ch hch
        · intro x hx
          rcases List.mem_append.1 hx with h' | h'
          · rcases List.mem_append.1 h' with h'' | h''
            · exact hf x h''
            · exact merge_splits_bound hg x h''
          · exact hsub (s, sub) (List.mem_cons_self _ _) x h'
        · intro q hq
          exact hsub q (List.mem_cons_of_mem _ hq)
        · intro hh q hq
          exact hverb hh q (List.mem_cons_of_mem _ hq)
      · next hnew =>
        have hfalse : hasNew = false := Bool.not_eq_true _ ▸ hnew
        refine ih _ _ (by simp) ?_ ?_ ?_ ch hch
        · intro x hx
          rcases List.mem_append.1 hx with h' | h'
          · rcases List.mem_append.1 h' with h'' | h''
            · exact hf x h''
            · exact merge_splits_bound hg x h''
          · rcases List.mem_singleton.1 h' with rfl
            exact hverb hfalse (s, sub) (List.mem_cons_self _ _)
        · intro q hq
          exact hsub q (List.mem_cons_of_mem _ hq)
        · intro hh q hq
          exact hverb hh q (List.mem_cons_of_mem _ hq)

theorem getLastD_irrel {α : Type} : ∀ (l : List α), l ≠ [] → ∀ d1 d2 : α,
    l.getLastD d1 = l.getLastD d2 := by
  intro l
  induction l with
  | nil => intro h; cases h rfl
  | cons a rest ih =>
    intro _ d1 d2
    match rest with
    | [] => rfl
    | b :: t => rfl

theorem getLastD_append {α : Type} : ∀ (l1 l2 : List α), l2 ≠ [] → ∀ d : α,
    (l1 ++ l2).getLastD d = l2.getLastD d := by
  intro l1
  induction l1 with
  | nil => intro l2 _ d; rfl
  | cons a rest ih =>
    intro l2 h d
    rw [List.cons_append, List.getLastD_cons, ih l2 h a]
    apply getLastD_irrel _ h

theorem chooseSepAux_cases : ∀ (seps : List (List Char)) (text : List Char),
    chooseSepAux text seps = none ∨
    chooseSepAux text seps = some ([], []) ∨
    (∃ s rest, chooseSepAux text seps = some (s, rest) ∧ s ≠ [] ∧
      ∃ pre, seps = pre ++ s :: rest) := by
  intro seps text
  induction seps with
  | nil => exact Or.inl rfl
  | cons s0 rest ih =>
    rw [chooseSepAux]
    by_cases h0 : s0 = []
    · rw [if_pos h0]
      exact Or.inr (Or.inl rfl)
    · rw [if_neg h0]
      by_cases hsub : hasSub s0 text
      · rw [if_pos hsub]
        exact Or.inr (Or.inr ⟨s0, rest, rfl, h0, [], rfl⟩)
      · rw [if_neg hsub]
        rcases ih with h | h | ⟨s, r, he, hne, pre, hpre⟩
        · exact Or.inl h
        · exact Or.inr (Or.inl h)
        · exact Or.inr (Or.inr ⟨s, r, he, hne, s0 :: pre, by rw [hpre]; rfl⟩)

/-- Structure of the chosen separator pair when the last separator is the
empty string (as in the default hierarchy): either the chosen separator is
`""` with no finer separators, or the finer separator list is a non-empty
strict suffix that still ends in `""`. -/
theorem chooseSep_spec (seps : List (List Char)) (text : List Char)
    (hlast : seps.getLastD [] = []) :
    ((chooseSep seps text).1 = [] ∧ (chooseSep seps text).2 = []) ∨
    ((chooseSep seps text).2 ≠ [] ∧
      (chooseSep seps text).2.length < seps.length ∧
      (chooseSep seps text).2.getLastD [] = [] ∧
      (∀ s ∈ (chooseSep seps text).2, s ∈ seps) ∧
      (chooseSep seps text).1 ∈ seps) := by
  rcases chooseSepAux_cases seps text with h | h | ⟨s, rest, he, hne, pre, hpre⟩
  · left
    rw [chooseSep, h]
    exact ⟨hlast, rfl⟩
  · left
    rw [chooseSep, h]
    exact ⟨rfl, rfl⟩
  · match rest with
    | [] =>
      exfalso
      apply hne
      rw [hpre] at hlast
      rw [getLastD_append _ _ (by simp)] at hlast
      simpa using hlast
    | r0 :: rtail =>
      right
      rw [chooseSep, he]
      refine ⟨by simp, ?_, ?_, ?_, ?_⟩
      · rw [hpre]
        simp
        omega
      · rw [hpre] at hlast
        rw [getLastD_append _ _ (by simp)] at hlast
        rw [List.getLastD_cons] at hlast
        rw [getLastD_irrel _ (by simp) _ s] at hlast
        exact hlast
      · intro x hx
        rw [hpre]
        exact List.mem_append.2 (Or.inr (List.mem_cons_of_mem _ hx))
      · rw [hpre]
        exact List.mem_append.2 (Or.inr (List.mem_cons_self _ _))

theorem stripWs_length_le (l : List Char) : (stripWs l).length ≤ l.length := by
  rw [stripWs]
  calc ((l.dropWhile Char.isWhitespace).reverse.dropWhile Char.isWhitespace).reverse.length
      = ((l.dropWhile Char.isWhitespace).reverse.dropWhile Char.isWhitespace).length := by
        rw [List.length_reverse]
    _ ≤ (l.dropWhile Char.isWhitespace).reverse.length :=
        (List.dropWhile_sublist _).length_le
    _ = (l.dropWhile Char.isWhitespace).length := by rw [List.length_reverse]
    _ ≤ l.length := (List.dropWhile_sublist _).length_le

theorem cleanup_bound {B : Nat} {l : List (List Char)}
    (h : ∀ x ∈ l, x.length ≤ B) : ∀ ch ∈ cleanup l, ch.length ≤ B := by
  intro ch hch
  rw [cleanup] at hch
  have h1 := List.mem_filter.1 hch
  rcases List.mem_map.1 h1.1 with ⟨x, hx, hxe⟩
  rw [← hxe]
  exact le_trans (stripWs_length_le x) (h x hx)

theorem splitTextInner_bound (cs ov : Nat) (keep : Bool) (hcs : 1 ≤ cs) :
    ∀ (fuel : Nat) (seps : List (List Char)), seps.getLastD [] = [] →
      ∀ (text ch : List Char), ch ∈ splitTextInner cs ov keep fuel seps text →
        ch.length ≤ 2 * cs + ov := by
  intro fuel
  induction fuel with
  | zero =>
    intro seps _ text ch hch
    rw [splitTextInner] at hch
    cases hch
  | succ fuel ih =>
    intro seps hlast text ch hch
    simp only [splitTextInner] at hch
    refine cleanup_bound ?_ ch hch
    refine procLoop_bound cs ov keep _ _ _ [] [] (by simp) (by simp) ?_ ?_
    · intro pr hpr x hx
      rcases List.mem_map.1 hpr with ⟨s, hs, rfl⟩
      dsimp only at hx
      split at hx
      · cases hx
      · split at hx
        · next hnew =>
          rcases chooseSep_spec seps text hlast with ⟨_, h2⟩ | ⟨_, _, hlast2, _, _⟩
          · exact absurd h2 hnew
          · exact ih _ hlast2 s x hx
        · cases hx
    · intro hfalse pr hpr
      have hemp : (chooseSep seps text).2 = [] := by
        apply List.isEmpty_iff.1
        revert hfalse
        cases (chooseSep seps text).2.isEmpty <;> simp
      have hsep : (chooseSep seps text).1 = [] := by
        rcases chooseSep_spec seps text hlast with ⟨h1, _⟩ | ⟨h2, _⟩
        · exact h1
        · exact absurd hemp h2
      rcases List.mem_map.1 hpr with ⟨s, hs, rfl⟩
      rw [hsep, if_pos rfl] at hs
      rcases List.mem_map.1 hs with ⟨c, _, rfl⟩
      dsimp only
      rw [withSep, hsep, if_neg (by simp)]
      simp
      omega

/-- The chunk-size bound for the full splitter with default separators:
every chunk is at most `2 * chunk_size + chunk_overlap` characters long. -/
theorem split_text_bound {cs ov : Nat} (hcs : 1 ≤ cs) (text : List Char) :
    ∀ ch ∈ split_text cs ov text, ch.length ≤ 2 * cs + ov := by
  intro ch hch
  exact splitTextInner_bound cs ov true hcs defaultSeparators.length
    defaultSeparators (by rfl) text ch hch

/- ----------------------------------------------------------------------
   C1: content preservation of the splitter
   ---------------------------------------------------------------------- -/

theorem leads_append : ∀ (sep l : List Char), leads sep l = true →
    sep ++ l.drop sep.length = l := by
  intro sep
  induction sep with
  | nil => intro l _; simp
  | cons a ra ih =>
    intro l h
    match l with
    | [] => cases h
    | b :: rb =>
      rw [leads, Bool.and_eq_true] at h
      rcases h with ⟨h1, h2⟩
      have hab : a = b := eq_of_beq h1
      subst hab
      simp only [List.cons_append, List.length_cons, List.drop_succ_cons]
      rw [ih rb h2]

theorem splitOnF_ne_nil (sep : List Char) : ∀ (fuel : Nat) (l : List Char),
    splitOnF sep fuel l ≠ [] := by
  intro fuel
  induction fuel with
  | zero => intro l; rw [splitOnF]; simp
  | succ fuel ih =>
    intro l
    match l with
    | [] => rw [splitOnF]; simp
    | c :: rest =>
      rw [splitOnF]
      split
      · simp
      · split
        · next heq => exact absurd heq (ih rest)
        · simp

theorem joinSep_splitOnF {sep : List Char} (hsep : sep ≠ []) :
    ∀ (fuel : Nat) (l : List Char), l.length < fuel →
      joinSep sep (splitOnF sep fuel l) = l := by
  intro fuel
  induction fuel with
  | zero => intro l h; omega
  | succ fuel ih =>
    intro l hlen
    match l with
    | [] => rw [splitOnF]; rfl
    | c :: rest =>
      rw [splitOnF]
      split
      · next hcond =>
        have hlead := hcond.2
        have hne := splitOnF_ne_nil sep fuel (rest.drop (sep.length - 1))
        match he : splitOnF sep fuel (rest.drop (sep.length - 1)) with
        | [] => exact absurd he hne
        | h0 :: t0 =>
          rw [joinSep]
          have hdroplen : (rest.drop (sep.length - 1)).length < fuel := by
            have hd := List.length_drop (sep.length - 1) rest
            simp at hlen
            omega
          have hrec : joinSep sep (h0 :: t0) = rest.drop (sep.length - 1) := by
            rw [← he]
            exact ih _ hdroplen
          rw [List.nil_append, hrec]
          have hd : (c :: rest).drop sep.length = rest.drop (sep.length - 1) := by
            have h1 : sep.length - 1 + 1 = sep.length := by
              have : sep.length ≠ 0 := by
                intro h
                exact hsep (List.eq_nil_of_length_eq_zero h)
              omega
            conv_lhs => rw [← h1]
            rw [List.drop_succ_cons]
          rw [← hd]
          exact leads_append sep (c :: rest) hlead
      · next hcond =>
        have hne := splitOnF_ne_nil sep fuel rest
        match he : splitOnF sep fuel rest with
        | [] => exact absurd he hne
        | h0 :: t0 =>
          have hrec : joinSep sep (h0 :: t0) = rest := by
            rw [← he]
            apply ih
            simp at hlen
            omega
          match t0 with
          | [] =>
            rw [joinSep]
            rw [joinSep] at hrec
            rw [hrec]
          | u :: t1 =>
            rw [joinSep]
            rw [joinSep] at hrec
            rw [List.cons_append, List.cons_append, hrec]

theorem count_joinSep {c : Char} {sep : List Char} (hc : c ∉ sep) :
    ∀ xs : List (List Char),
      List.count c (joinSep sep xs) = (xs.map (List.count c)).sum := by
  intro xs
  match xs with
  | [] => rfl
  | [x] => simp [joinSep]
  | x :: y :: t =>
    rw [joinSep]
    have ih := count_joinSep hc (y :: t)
    rw [List.count_append, List.count_append, ih]
    rw [List.count_eq_zero.2 hc]
    simp

theorem count_pySplit {c : Char} {sep : List Char} (hsep : sep ≠ []) (hc : c ∉ sep)
    (l : List Char) :
    ((pySplit sep l).map (List.count c)).sum = List.count c l := by
  rw [← count_joinSep hc (pySplit sep l), pySplit,
    joinSep_splitOnF hsep (l.length + 1) l (by omega)]

theorem count_charSplits (c : Char) : ∀ l : List Char,
    ((l.map (fun c' => [c'])).map (List.count c)).sum = List.count c l := by
  intro l
  induction l with
  | nil => rfl
  | cons a rest ih =>
    simp only [List.map_cons, List.sum_cons, ih, List.count_cons, List.count_nil]
    omega

theorem count_withSep {c : Char} {sep : List Char} (hc : c ∉ sep)
    (keep : Bool) (s : List Char) :
    List.count c (withSep keep sep s) = List.count c s := by
  rw [withSep]
  split
  · rw [List.count_append, List.count_eq_zero.2 hc, Nat.add_zero]
  · rfl

theorem count_dropWhile_ws {c : Char} (hc : ¬ c.isWhitespace) :
    ∀ l : List Char, List.count c (l.dropWhile Char.isWhitespace) = List.count c l := by
  intro l
  induction l with
  | nil => rfl
  | cons a rest ih =>
    rw [List.dropWhile_cons]
    split
    · next hws =>
      rw [ih, List.count_cons]
      have : (a == c) = false := by
        apply beq_eq_false_iff_ne.2
        intro he
        subst he
        exact hc hws
      rw [this]
      simp
    · rfl

theorem count_stripWs {c : Char} (hc : ¬ c.isWhitespace) (l : List Char) :
    List.count c (stripWs l) = List.count c l := by
  rw [stripWs, List.count_reverse, count_dropWhile_ws hc, List.count_reverse,
    count_dropWhile_ws hc]

theorem sum_filter_ne_nil (f : List Char → Nat) (hf : f [] = 0) :
    ∀ l : List (List Char),
      ((l.filter (fun x => x ≠ [])).map f).sum = (l.map f).sum := by
  intro l
  induction l with
  | nil => rfl
  | cons a rest ih =>
    rw [List.filter_cons]
    split
    · next h =>
      simp only [List.map_cons, List.sum_cons, ih]
    · next h =>
      have ha : a = [] := by
        by_contra hne
        exact h (by simpa using hne)
      simp only [List.map_cons, List.sum_cons, ih, ha, hf]
      omega

theorem cleanup_count {c : Char} (hc : ¬ c.isWhitespace) (l : List (List Char)) :
    ((cleanup l).map (List.count c)).sum = (l.map (List.count c)).sum := by
  rw [cleanup, sum_filter_ne_nil _ rfl]
  rw [List.map_map]
  have : (List.count c ∘ stripWs) = fun x => List.count c (stripWs x) := rfl
  rw [this]
  have : (l.map (fun x => List.count c (stripWs x))).sum =
      (l.map (List.count c)).sum := by
    congr 1
    apply List.map_congr_left
    intro x _
    exact count_stripWs hc x
  exact this

theorem merge_fold_count (cs ov : Nat) (c : Char) :
    ∀ (splits : List (List Char)) (st : MergeSt),
      (st.chunks.map (List.count c)).sum + (st.cur.map (List.count c)).sum +
        (splits.map (List.count c)).sum ≤
      ((splits.foldl (mergeStep cs ov []) st).chunks.map (List.count c)).sum +
        ((splits.foldl (mergeStep cs ov []) st).cur.map (List.count c)).sum := by
  intro splits
  induction splits with
  | nil => intro st; simp
  | cons s rest ih =>
    intro st
    rw [List.foldl_cons]
    have hstep : (st.chunks.map (List.count c)).sum + (st.cur.map (List.count c)).sum +
        List.count c s ≤
        ((mergeStep cs ov [] st s).chunks.map (List.count c)).sum +
          ((mergeStep cs ov [] st s).cur.map (List.count c)).sum := by
      rw [mergeStep]
      split
      · simp only
        rw [List.map_append, List.sum_append, List.map_append, List.sum_append]
        have hj : (([joinSep [] st.cur]).map (List.count c)).sum =
            (st.cur.map (List.count c)).sum := by
          simp [count_joinSep (List.not_mem_nil c) st.cur]
        rw [hj]
        simp
      · simp only
        rw [List.map_append, List.sum_append]
        simp only [List.map_cons, List.sum_cons, List.map_nil, List.sum_nil]
        omega
    have h2 := ih (mergeStep cs ov [] st s)
    simp only [List.map_cons, List.sum_cons]
    omega

theorem merge_splits_count (cs ov : Nat) (c : Char) (splits : List (List Char)) :
    (splits.map (List.count c)).sum ≤
      ((merge_splits cs ov [] splits).map (List.count c)).sum := by
  have h := merge_fold_count cs ov c splits ⟨[], [], 0⟩
  rw [merge_splits]
  split
  · next hcur =>
    rw [hcur] at h
    simp at h
    omega
  · next hcur =>
    rw [List.map_append, List.sum_append]
    have hj : (([joinSep [] (splits.foldl (mergeStep cs ov []) ⟨[], [], 0⟩).cur]).map
        (List.count c)).sum =
        ((splits.foldl (mergeStep cs ov []) ⟨[], [], 0⟩).cur.map (List.count c)).sum := by
      simp [count_joinSep (List.not_mem_nil c)]
    rw [hj]
    simp at h
    omega

theorem procLoop_count (cs ov : Nat) (keep : Bool) (sep : List Char) (hasNew : Bool)
    (c : Char) (hc : c ∉ sep) :
    ∀ (pairs : List (List Char × List (List Char))) (good finals : List (List Char)),
      (∀ pr ∈ pairs, ¬((withSep keep sep pr.1).length < cs) → hasNew = true →
        List.count c pr.1 ≤ (pr.2.map (List.count c)).sum) →
      (finals.map (List.count c)).sum + (good.map (List.count c)).sum +
        (pairs.map (fun pr => List.count c pr.1)).sum ≤
      ((procLoop cs ov keep sep hasNew pairs good finals).map (List.count c)).sum := by
  intro pairs
  induction pairs with
  | nil =>
    intro good finals _
    rw [procLoop, List.map_append, List.sum_append]
    have := merge_splits_count cs ov c good
    simp
    omega
  | cons pr rest ih =>
    intro good finals H
    rcases pr with ⟨s, sub⟩
    rw [procLoop]
    split
    · next hlt =>
      have h2 := ih (good ++ [withSep keep sep s]) finals
        (fun q hq u1 u2 => H q (List.mem_cons_of_mem _ hq) u1 u2)
      rw [List.map_append, List.sum_append] at h2
      simp only [List.map_cons, List.sum_cons, List.map_nil, List.sum_nil,
        count_withSep hc] at h2
      simp only [List.map_cons, List.sum_cons]
      omega
    · next hge =>
      split
      · next hnew =>
        have hsub : List.count c s ≤ (sub.map (List.count c)).sum := by
          simpa using H (s, sub) (List.mem_cons_self _ _) hge hnew
        have h2 := ih [] (finals ++ merge_splits cs ov [] good ++ sub)
          (fun q hq u1 u2 => H q (List.mem_cons_of_mem _ hq) u1 u2)
        rw [List.map_append, List.sum_append, List.map_append, List.sum_append] at h2
        have h3 := merge_splits_count cs ov c good
        simp only [List.map_nil, List.sum_nil] at h2
        simp only [List.map_cons, List.sum_cons]
        omega
      · next hnew =>
        have h2 := ih [] (finals ++ merge_splits cs ov [] good ++ [withSep keep sep s])
          (fun q hq u1 u2 => H q (List.mem_cons_of_mem _ hq) u1 u2)
        rw [List.map_append, List.sum_append, List.map_append, List.sum_append] at h2
        have h3 := merge_splits_count cs ov c good
        simp only [List.map_nil, List.sum_nil, List.map_cons, List.sum_cons,
          count_withSep hc] at h2
        simp only [List.map_cons, List.sum_cons]
        omega

theorem getLastD_mem {α : Type} : ∀ (l : List α) (d : α), l ≠ [] → l.getLastD d ∈ l := by
  intro l
  induction l with
  | nil => intro d h; cases h rfl
  | cons a rest ih =>
    intro d _
    match rest with
    | [] => exact List.mem_singleton.2 rfl
    | b :: t =>
      rw [List.getLastD_cons]
      exact List.mem_cons_of_mem _ (ih a (by simp))

theorem chooseSep_fst_mem (seps : List (List Char)) (text : List Char) :
    (chooseSep seps text).1 = [] ∨ (chooseSep seps text).1 ∈ seps := by
  rcases chooseSepAux_cases seps text with h | h | ⟨s, rest, he, hne, pre, hpre⟩
  · rw [chooseSep, h]
    match seps with
    | [] => exact Or.inl rfl
    | s0 :: t => exact Or.inr (getLastD_mem (s0 :: t) [] (by simp))
  · rw [chooseSep, h]
    exact Or.inl rfl
  · rw [chooseSep, he]
    right
    rw [hpre]
    exact List.mem_append.2 (Or.inr (List.mem_cons_self _ _))

theorem chooseSep_snd_sub (seps : List (List Char)) (text : List Char) :
    ∀ x ∈ (chooseSep seps text).2, x ∈ seps := by
  rcases chooseSepAux_cases seps text with h | h | ⟨s, rest, he, hne, pre, hpre⟩
  · rw [chooseSep, h]
    intro x hx
    cases hx
  · rw [chooseSep, h]
    intro x hx
    cases hx
  · rw [chooseSep, he]
    intro x hx
    rw [hpre]
    exact List.mem_append.2 (Or.inr (List.mem_cons_of_mem _ hx))

theorem chooseSep_snd_len (seps : List (List Char)) (text : List Char)
    (h : (chooseSep seps text).2 ≠ []) :
    (chooseSep seps text).2.length < seps.length := by
  rcases chooseSepAux_cases seps text with h0 | h0 | ⟨s, rest, he, hne, pre, hpre⟩
  · rw [chooseSep, h0] at h ⊢
    cases h rfl
  · rw [chooseSep, h0] at h ⊢
    cases h rfl
  · rw [chooseSep, he] at h ⊢
    rw [hpre]
    simp
    omega

theorem splitTextInner_count (cs ov : Nat) (keep : Bool) (c : Char)
    (hcws : ¬ c.isWhitespace) :
    ∀ (fuel : Nat) (seps : List (List Char)) (text : List Char),
      1 ≤ fuel → seps.length ≤ fuel → (∀ s ∈ seps, c ∉ s) →
      List.count c text ≤
        ((splitTextInner cs ov keep fuel seps text).map (List.count c)).sum := by
  intro fuel
  induction fuel with
  | zero =>
    intro seps text h
    exact absurd h (by omega)
  | succ fuel ih =>
    intro seps text _ hlen hseps
    simp only [splitTextInner]
    rw [cleanup_count hcws]
    have hcsep : c ∉ (chooseSep seps text).1 := by
      rcases chooseSep_fst_mem seps text with h | h
      · rw [h]; exact List.not_mem_nil c
      · exact hseps _ h
    have hsplitsum :
        (((if (chooseSep seps text).1 = [] then text.map (fun c' => [c'])
            else pySplit (chooseSep seps text).1 text)).map (List.count c)).sum =
          List.count c text := by
      split
      · exact count_charSplits c text
      · next hne => exact count_pySplit hne hcsep text
    have H : ∀ pr ∈ ((if (chooseSep seps text).1 = [] then text.map (fun c' => [c'])
          else pySplit (chooseSep seps text).1 text)).map (fun s =>
          (s, if (withSep keep (chooseSep seps text).1 s).length < cs then []
              else if (chooseSep seps text).2 ≠ [] then
                splitTextInner cs ov keep fuel (chooseSep seps text).2 s
              else [])),
        ¬((withSep keep (chooseSep seps text).1 pr.1).length < cs) →
        (!(chooseSep seps text).2.isEmpty) = true →
        List.count c pr.1 ≤ (pr.2.map (List.count c)).sum := by
      intro pr hpr h1 h2
      rcases List.mem_map.1 hpr with ⟨s, _, rfl⟩
      dsimp only at h1 ⊢
      have hne : (chooseSep seps text).2 ≠ [] := by
        intro hnil
        rw [hnil] at h2
        cases h2
      rw [if_neg h1, if_pos hne]
      have hpos : 0 < (chooseSep seps text).2.length := List.length_pos.2 hne
      have hlt : (chooseSep seps text).2.length < seps.length :=
        chooseSep_snd_len seps text hne
      apply ih
      · omega
      · omega
      · intro x hx
        exact hseps x (chooseSep_snd_sub seps text x hx)
    have happly := procLoop_count cs ov keep (chooseSep seps text).1
      (!(chooseSep seps text).2.isEmpty) c hcsep _ [] [] H
    simp only [List.map_nil, List.sum_nil, Nat.zero_add] at happly
    rw [List.map_map] at happly
    have hfst : (((if (chooseSep seps text).1 = [] then text.map (fun c' => [c'])
          else pySplit (chooseSep seps text).1 text)).map
          ((fun pr => List.count c pr.1) ∘ (fun s =>
            (s, if (withSep keep (chooseSep seps text).1 s).length < cs then []
                else if (chooseSep seps text).2 ≠ [] then
                  splitTextInner cs ov keep fuel (chooseSep seps text).2 s
                else [])))) =
        (((if (chooseSep seps text).1 = [] then text.map (fun c' => [c'])
            else pySplit (chooseSep seps text).1 text)).map (List.count c)) := rfl
    rw [hfst, hsplitsum] at happly
    exact happly

/-- Content preservation of the full splitter with default separators:
no occurrence of a non-whitespace character other than `'.'` (the one
non-whitespace character occurring in a default separator) is lost. -/
theorem split_text_content {cs ov : Nat} (c : Char) (hws : ¬ c.isWhitespace)
    (hdot : c ≠ '.') (text : List Char) :
    List.count c text ≤ ((split_text cs ov text).map (List.count c)).sum := by
  rw [split_text]
  apply splitTextInner_count cs ov true c hws defaultSeparators.length defaultSeparators
    text (by rw [defaultSeparators]; simp) (le_refl _)
  intro s hs
  rw [defaultSeparators] at hs
  have hn : c ≠ '\n' := by
    intro he
    subst he
    exact hws (by rfl)
  have hsp : c ≠ ' ' := by
    intro he
    subst he
    exact hws (by rfl)
  simp only [List.mem_cons, List.mem_singleton, List.not_mem_nil, or_false] at hs
  rcases hs with rfl | rfl | rfl | rfl | rfl <;> simp [hn, hsp, hdot]

/-- C1 counterexample: with `chunk_size = 5 > overlap = 2 ≥ 0` the input
`"abc def ghi"` produces the chunk `"abc def"` of length `7 > chunk_size`.
That chunk is not the last chunk of the output (it is in `dropLast`), and it
is produced by the merge step, not by a character-level fallback, so the
claim's only exception does not apply: the merge step's overlap re-seeding
makes the next buffer start above `chunk_size` without re-checking it. -/
theorem C1_counterexample :
    (0 : Nat) ≤ 2 ∧ 2 < 5 ∧
    split_text 5 2 ("abc def ghi".toList) =
      ["abc".toList, "abc def".toList, "def ghi".toList] ∧
    ∃ ch ∈ (split_text 5 2 ("abc def ghi".toList)).dropLast, 5 < ch.length := by
  refine ⟨by decide, by decide, by decide, ?_⟩
  refine ⟨"abc def".toList, by decide, by decide⟩

/-- C1 (amended): for every `chunk_size > overlap ≥ 0` and every input,
every chunk produced by `split_text` has length at most
`2 * chunk_size + overlap` (the merge step's overlap re-seeding does not
re-check `chunk_size`, so merged chunks may exceed it — the exceedance is not
limited to a character-level fallback), and no occurrence of a
non-whitespace, non-separator character of the input is lost: its count in
the input is at most its total count over the produced chunks (trimming
removes only whitespace, and `'.'` is the only non-whitespace character
occurring in a default separator). -/
theorem C1_amended_split_text (cs ov : Nat) (text : List Char) (hov : ov < cs) :
    (∀ ch ∈ split_text cs ov text, ch.length ≤ 2 * cs + ov) ∧
    (∀ c : Char, ¬ c.isWhitespace → c ≠ '.' →
      List.count c text ≤ ((split_text cs ov text).map (List.count c)).sum) := by
  constructor
  · exact split_text_bound (by omega) text
  · intro c h1 h2
    exact split_text_content c h1 h2 text

/-- Witness for the amended C1 at a concrete input. -/
theorem C1_amended_split_text_witness :
    (2 < 5) ∧
    (∀ ch ∈ split_text 5 2 ("abc def ghi".toList), ch.length ≤ 2 * 5 + 2) ∧
    (¬ 'a'.isWhitespace) ∧ ('a' ≠ '.') ∧
    (List.count 'a' ("abc def ghi".toList) ≤
      ((split_text 5 2 ("abc def ghi".toList)).map (List.count 'a')).sum) :=
  ⟨by decide,
   (C1_amended_split_text 5 2 ("abc def ghi".toList) (by decide)).1,
   by decide, by decide,
   (C1_amended_split_text 5 2 ("abc def ghi".toList) (by decide)).2 'a'
     (by decide) (by decide)⟩

/- ----------------------------------------------------------------------
   C6: equivalence of the two store variants
   ---------------------------------------------------------------------- -/

theorem insertDesc_map {α β S : Type} [LinearOrder S] (f : α → β) (x : α × S) :
    ∀ l : List (α × S),
      insertDesc (Prod.map f id x) (l.map (Prod.map f id)) =
        (insertDesc x l).map (Prod.map f id) := by
  intro l
  induction l with
  | nil => rfl
  | cons y ys ih =>
    rw [List.map_cons, insertDesc, insertDesc]
    have hsnd : (Prod.map f id y).2 = y.2 := rfl
    have hsnd2 : (Prod.map f id x).2 = x.2 := rfl
    rw [hsnd, hsnd2]
    split
    · rfl
    · rw [List.map_cons, ih]

theorem sortDesc_map {α β S : Type} [LinearOrder S] (f : α → β) (l : List (α × S)) :
    sortDesc (l.map (Prod.map f id)) = (sortDesc l).map (Prod.map f id) := by
  rw [sortDesc, sortDesc]
  have aux : ∀ (l acc : List (α × S)),
      (l.map (Prod.map f id)).foldl (fun a x => insertDesc x a) (acc.map (Prod.map f id)) =
        (l.foldl (fun a x => insertDesc x a) acc).map (Prod.map f id) := by
    intro l
    induction l with
    | nil => intro acc; rfl
    | cons x xs ih =>
      intro acc
      rw [List.map_cons, List.foldl_cons, List.foldl_cons, insertDesc_map, ih]
  exact aux l []

theorem sorted_perm_distinct_eq {α S : Type} [LinearOrder S] :
    ∀ (l1 l2 : List (α × S)), List.Perm l1 l2 →
      l1.Pairwise (fun a b => b.2 ≤ a.2) → l2.Pairwise (fun a b => b.2 ≤ a.2) →
      l1.Pairwise (fun a b => a.2 ≠ b.2) → l1 = l2 := by
  intro l1
  induction l1 with
  | nil =>
    intro l2 hp _ _ _
    exact (List.Perm.nil_eq hp).symm ▸ rfl
  | cons x t1 ih =>
    intro l2 hp hs1 hs2 hd1
    match l2 with
    | [] => exact absurd hp.symm (by simp)
    | y :: t2 =>
      have hxy : x = y := by
        have hx2 : x ∈ y :: t2 := hp.mem_iff.1 (List.mem_cons_self _ _)
        rcases List.mem_cons.1 hx2 with h | h
        · exact h
        · have hy1 : y ∈ x :: t1 := hp.symm.mem_iff.1 (List.mem_cons_self _ _)
          rcases List.mem_cons.1 hy1 with h' | h'
          · exact h'.symm
          · exfalso
            have hle1 : y.2 ≤ x.2 := (List.pairwise_cons.1 hs1).1 y h'
            have hle2 : x.2 ≤ y.2 := (List.pairwise_cons.1 hs2).1 x h
            have hne : x.2 ≠ y.2 := (List.pairwise_cons.1 hd1).1 y h'
            exact hne (le_antisymm hle2 hle1)
      subst hxy
      have hpt : List.Perm t1 t2 := List.Perm.cons_inv hp
      rw [ih t2 hpt (List.pairwise_cons.1 hs1).2 (List.pairwise_cons.1 hs2).2
        (List.pairwise_cons.1 hd1).2]

theorem sortDesc_eq_of_perm_distinct {α S : Type} [LinearOrder S]
    {l1 l2 : List (α × S)} (hp : List.Perm l1 l2)
    (hd : l1.Pairwise (fun a b => a.2 ≠ b.2)) :
    sortDesc l1 = sortDesc l2 := by
  apply sorted_perm_distinct_eq
  · exact ((sortDesc_perm l1).trans hp).trans (sortDesc_perm l2).symm
  · exact sortDesc_sorted l1
  · exact sortDesc_sorted l2
  · exact (List.Perm.pairwise_iff (fun h => Ne.symm h) (sortDesc_perm l1).symm).1 hd

theorem all_congr_list {α : Type} {p q : α → Bool} :
    ∀ {l : List α}, (∀ a ∈ l, p a = q a) → l.all p = l.all q := by
  intro l
  induction l with
  | nil => intro _; rfl
  | cons a rest ih =>
    intro h
    rw [List.all_cons, List.all_cons, h a (List.mem_cons_self _ _),
      ih (fun x hx => h x (List.mem_cons_of_mem _ hx))]

theorem redisFiltered_eq {Emb : Type} (st : RedisStore Emb)
    (filter : List (String × PyVal)) :
    redisFiltered st filter =
      st.recs.filter (fun r => filter.isEmpty || redisMatch filter r) := by
  by_cases hemp : filter.isEmpty
  · have hnil := List.isEmpty_iff.1 hemp
    subst hnil
    rw [redisFiltered, if_pos (by rfl), redisCandidates]
    rw [if_neg (by decide)]
    simp
  · have hef : filter.isEmpty = false := by
      cases h : filter.isEmpty
      · rfl
      · exact absurd h hemp
    rw [redisFiltered, if_neg hemp, redisCandidates]
    by_cases htr : pyTruthy ((List.lookup "collection" filter).getD .vnone)
    · rw [if_pos htr, List.filter_filter]
      apply List.filter_congr
      intro r _
      rw [hef, Bool.false_or]
      cases hm : redisMatch filter r
      · simp
      · simp only [Bool.true_and]
        have hlk : List.lookup "collection" filter =
            some ((List.lookup "collection" filter).getD .vnone) := by
          cases hl : List.lookup "collection" filter
          · rw [hl] at htr
            exact absurd htr (by decide)
          · rfl
        have hentry := lookup_mem hlk
        have hall := List.all_eq_true.1 hm _ hentry
        simpa using hall
    · rw [if_neg htr]
      apply List.filter_congr
      intro r _
      rw [hef, Bool.false_or]

theorem redisMatch_mkRec {Emb : Type} (filter : List (String × PyVal))
    (base i : Nat) (d : Document) (e : Emb)
    (hcoll : (List.lookup "collection" d.metadata).isSome = true)
    (hfval : ∀ kv ∈ filter, kv.2 ≠ PyVal.vnone) :
    redisMatch filter (mkRedisRec none base (i, d, e)) =
      filterMatchMem filter d.metadata := by
  rw [redisMatch, filterMatchMem]
  apply all_congr_list
  intro kv hkv
  rcases Option.isSome_iff_exists.1 hcoll with ⟨v0, hv0⟩
  have hcollval : (mkRedisRec none base (i, d, e)).coll = v0 := by
    simp [mkRedisRec, resolveColl, hv0]
  have hmd : (mkRedisRec none base (i, d, e)).metadata = d.metadata := rfl
  by_cases hk : kv.1 = "collection"
  · rw [if_pos hk, hcollval, hk, hv0]
    rfl
  · rw [if_neg hk, hmd]
    cases hl : List.lookup kv.1 d.metadata
    · have hne := hfval kv hkv
      simp only [Option.getD_none]
      have h1 : (PyVal.vnone == kv.2) = false :=
        beq_eq_false_iff_ne.2 (fun h => hne h.symm)
      rw [h1]
      rfl
    · rfl

theorem searchRecs_eq {Emb S : Type} [LinearOrder S] (sim : Emb → Emb → S)
    (st : RedisStore Emb) (q : Emb) (k : Nat) (filter : List (String × PyVal)) :
    st.searchRecs sim q k filter =
      (sortDesc ((redisFiltered st filter).map (fun r => (r, sim q r.embedding)))).take k := by
  rw [RedisStore.searchRecs]
  split
  · next hemp =>
    have hc : redisCandidates st filter = [] := List.isEmpty_iff.1 hemp
    rw [redisFiltered]
    split
    · rw [hc]
      simp [sortDesc]
    · rw [hc]
      simp [sortDesc]
  · rfl

theorem mem_search_eq {Emb S : Type} [LinearOrder S] (sim : Emb → Emb → S)
    (st : InMemoryStore Emb) (q : Emb) (k : Nat) (filter : List (String × PyVal)) :
    st.similarity_search sim q k filter =
      (sortDesc ((memCandidates st filter).map (fun p => (p.1, sim q p.2)))).take k := by
  rw [InMemoryStore.similarity_search]
  split
  · next hemp =>
    have hd : st.documents = [] := List.isEmpty_iff.1 hemp
    rw [memCandidates, hd]
    simp [sortDesc]
  · rfl

theorem built_filter_map {Emb S : Type} [LinearOrder S] (sim : Emb → Emb → S)
    (q : Emb) (filter : List (String × PyVal))
    (hfval : ∀ kv ∈ filter, kv.2 ≠ PyVal.vnone) :
    ∀ (pairs : List (Document × Emb)) (n base : Nat),
      (∀ p ∈ pairs, (List.lookup "collection" p.1.metadata).isSome = true) →
      (((pairs.enumFrom n).map (mkRedisRec none base)).filter
          (fun r => filter.isEmpty || redisMatch filter r)).map
          (fun r => ((⟨r.content, r.metadata⟩ : Document), sim q r.embedding)) =
        (pairs.filter (fun p => filter.isEmpty || filterMatchMem filter p.1.metadata)).map
          (fun p => (p.1, sim q p.2)) := by
  intro pairs
  induction pairs with
  | nil => intro n base _; rfl
  | cons p rest ih =>
    intro n base hcoll
    rcases p with ⟨d, e⟩
    rw [List.enumFrom_cons, List.map_cons]
    have hm : redisMatch filter (mkRedisRec none base (n, d, e)) =
        filterMatchMem filter d.metadata :=
      redisMatch_mkRec filter base n d e (hcoll (d, e) (List.mem_cons_self _ _)) hfval
    have ihr := ih (n + 1) base (fun x hx => hcoll x (List.mem_cons_of_mem _ hx))
    simp only [List.filter_cons]
    dsimp only
    rw [hm]
    by_cases hcond : (filter.isEmpty || filterMatchMem filter d.metadata) = true
    · rw [if_pos hcond, if_pos hcond, List.map_cons, List.map_cons, ihr]
      rfl
    · rw [if_neg hcond, if_neg hcond, ihr]

/-- C6 (amended): the two store variants coincide on `similarity_search`
under the provisos the counterexample forces: every document's metadata
carries a `collection` key (the claim's own premise), no filter value is
`None` (Redis reads missing keys as `None` while the in-memory store requires
key presence), and all candidate scores are pairwise distinct (the order of
Redis `SMEMBERS` is unspecified, so score ties may be returned in different
orders; the Redis store is therefore quantified over every reordering `σ` of
its records). -/
theorem C6_amended_store_equivalence {Emb S : Type} [LinearOrder S] (sim : Emb → Emb → S)
    (docs : List Document) (embs : List Emb) (q : Emb) (k : Nat)
    (filter : List (String × PyVal)) (σ : RedisStore Emb)
    (hlen : docs.length = embs.length)
    (hcoll : ∀ d ∈ docs, (List.lookup "collection" d.metadata).isSome = true)
    (hfval : ∀ kv ∈ filter, kv.2 ≠ PyVal.vnone)
    (hperm : List.Perm σ.recs (((RedisStore.empty Emb).add_documents docs embs none).1.recs))
    (hdist : (embs.map (sim q)).Pairwise (fun a b => a ≠ b)) :
    σ.similarity_search sim q k filter =
      InMemoryStore.similarity_search sim
        (((InMemoryStore.empty Emb).add_documents docs embs).1) q k filter := by
  have hrecs0 : ((RedisStore.empty Emb).add_documents docs embs none).1.recs =
      ((docs.zip embs).enumFrom 0).map (mkRedisRec none 0) := by
    rw [RedisStore.add_documents, if_neg (by omega)]
    rfl
  have hdocs : (((InMemoryStore.empty Emb).add_documents docs embs).1).documents = docs := by
    rw [InMemoryStore.add_documents, if_neg (by omega)]
    rfl
  have hembs : (((InMemoryStore.empty Emb).add_documents docs embs).1).embeddings = embs := by
    rw [InMemoryStore.add_documents, if_neg (by omega)]
    rfl
  have hmemc : memCandidates (((InMemoryStore.empty Emb).add_documents docs embs).1) filter =
      (docs.zip embs).filter
        (fun p => filter.isEmpty || filterMatchMem filter p.1.metadata) := by
    rw [memCandidates, hdocs, hembs]
  rw [RedisStore.similarity_search, searchRecs_eq, redisFiltered_eq, mem_search_eq, hmemc,
    List.map_take]
  apply congrArg (List.take k)
  have hpm : (fun p : RedisRec Emb × S =>
      (({ page_content := p.1.content, metadata := p.1.metadata } : Document), p.2)) =
      Prod.map (fun r : RedisRec Emb =>
        ({ page_content := r.content, metadata := r.metadata } : Document)) id := by
    funext p
    rfl
  rw [hpm, ← sortDesc_map, List.map_map]
  have hA2 : ((σ.recs.filter (fun r => filter.isEmpty || redisMatch filter r)).map
      ((Prod.map (fun r : RedisRec Emb =>
        ({ page_content := r.content, metadata := r.metadata } : Document)) id) ∘
        (fun r => (r, sim q r.embedding)))) =
      ((σ.recs.filter (fun r => filter.isEmpty || redisMatch filter r)).map
        (fun r => (({ page_content := r.content, metadata := r.metadata } : Document),
          sim q r.embedding))) := rfl
  rw [hA2]
  have hbuilt := built_filter_map sim q filter hfval (docs.zip embs) 0 0
    (fun p hp => hcoll p.1 (List.of_mem_zip hp).1)
  have hAperm : List.Perm
      ((σ.recs.filter (fun r => filter.isEmpty || redisMatch filter r)).map
        (fun r => (({ page_content := r.content, metadata := r.metadata } : Document),
          sim q r.embedding)))
      (((docs.zip embs).filter
          (fun p => filter.isEmpty || filterMatchMem filter p.1.metadata)).map
        (fun p => (p.1, sim q p.2))) := by
    have h1 := (hperm.filter (fun r => filter.isEmpty || redisMatch filter r))
    rw [hrecs0] at h1
    have h2 := h1.map
      (fun r => (({ page_content := r.content, metadata := r.metadata } : Document),
        sim q r.embedding))
    rw [hbuilt] at h2
    exact h2
  have hpairs : List.Pairwise (fun a b : Document × Emb => sim q a.2 ≠ sim q b.2)
      (docs.zip embs) := by
    have step1 : List.Pairwise (fun a b => sim q a ≠ sim q b) embs :=
      List.pairwise_map.1 hdist
    have step2 : (docs.zip embs).map Prod.snd = embs :=
      List.map_snd_zip docs embs (le_of_eq hlen.symm)
    rw [← step2] at step1
    exact (@List.pairwise_map (Document × Emb) Emb Prod.snd
      (fun a b => sim q a ≠ sim q b) (docs.zip embs)).1 step1
  have hdistB : List.Pairwise (fun a b : Document × S => a.2 ≠ b.2)
      (((docs.zip embs).filter
          (fun p => filter.isEmpty || filterMatchMem filter p.1.metadata)).map
        (fun p => (p.1, sim q p.2))) := by
    apply List.pairwise_map.2
    exact List.Pairwise.sublist (List.filter_sublist _) hpairs
  exact (sortDesc_eq_of_perm_distinct hAperm.symm hdistB).symm

/-- C6 (counterexample to the claim as stated): with a filter entry whose
value is `None` for a key absent from the document's metadata, the Redis
store returns the document (a missing metadata key reads as `None` via
`.get`, which compares equal to the filter value) while the in-memory store
returns nothing (its filter loop requires the key to be present), so two
store variants populated with the same documents and embeddings are
distinguishable from the caller's perspective. -/
theorem C6_counterexample :
    RedisStore.similarity_search (fun x y : Int => x * y)
        (((RedisStore.empty Int).add_documents
            [⟨"c", [("collection", PyVal.vstr "A"), ("source", PyVal.vstr "s")]⟩]
            [(1 : Int)] none).1)
        1 1 [("x", PyVal.vnone)] ≠
      InMemoryStore.similarity_search (fun x y : Int => x * y)
        (((InMemoryStore.empty Int).add_documents
            [⟨"c", [("collection", PyVal.vstr "A"), ("source", PyVal.vstr "s")]⟩]
            [(1 : Int)]).1)
        1 1 [("x", PyVal.vnone)] := by
  decide

/-- Closed instance of the amended C6 equivalence: two documents in
collection `"A"` with distinct scores, searched with the collection filter;
both store variants return the same ranked list. -/
theorem C6_amended_store_equivalence_witness :
    RedisStore.similarity_search (fun x y : Int => x * y)
        (((RedisStore.empty Int).add_documents
            [⟨"a", [("collection", PyVal.vstr "A"), ("source", PyVal.vstr "s")]⟩,
             ⟨"b", [("collection", PyVal.vstr "A"), ("source", PyVal.vstr "t")]⟩]
            [(1 : Int), 2] none).1)
        2 2 [("collection", PyVal.vstr "A")] =
      InMemoryStore.similarity_search (fun x y : Int => x * y)
        (((InMemoryStore.empty Int).add_documents
            [⟨"a", [("collection", PyVal.vstr "A"), ("source", PyVal.vstr "s")]⟩,
             ⟨"b", [("collection", PyVal.vstr "A"), ("source", PyVal.vstr "t")]⟩]
            [(1 : Int), 2]).1)
        2 2 [("collection", PyVal.vstr "A")] :=
  C6_amended_store_equivalence (fun x y : Int => x * y)
    [⟨"a", [("collection", PyVal.vstr "A"), ("source", PyVal.vstr "s")]⟩,
     ⟨"b", [("collection", PyVal.vstr "A"), ("source", PyVal.vstr "t")]⟩]
    [(1 : Int), 2] 2 2 [("collection", PyVal.vstr "A")]
    (((RedisStore.empty Int).add_documents
        [⟨"a", [("collection", PyVal.vstr "A"), ("source", PyVal.vstr "s")]⟩,
         ⟨"b", [("collection", PyVal.vstr "A"), ("source", PyVal.vstr "t")]⟩]
        [(1 : Int), 2] none).1)
    (by decide) (by decide) (by decide) (List.Perm.refl _) (by decide)
